import Mathlib

/-
Verification of the measurement-operator core of the cs_sat repository
(src/src/purify_measurement_gauss.c and src/src/purify_image.c) against its
natural-language specification.  The C buffers are modelled as total functions
on ℕ (only indices below the stated sizes are meaningful), machine doubles as
real numbers, and complex double as ℂ.  Components of the repository that are
referenced but whose sources are not available (purify_sparsemat.c,
purify_utils.c, purify_visibility.c, the FFTW plans and BLAS calls) are
modelled from the specification; each such definition says so in its doc
comment.
-/

open Complex ComplexConjugate Finset

noncomputable section

/-- Parameter block for the continuous Fourier transform operator.
Modelled from the spec: the struct purify_measurement_cparam is declared in
purify_measurement.h, which is not among the sources; the fields are exactly
those read by purify_measurement_gauss.c (base image size nx1, ny1,
oversampling factors ofx, ofy, number of measurements nmeas, and maximum
coordinate magnitudes umax, vmax). -/
structure cparam where
  nx1 : ℕ
  ny1 : ℕ
  ofx : ℕ
  ofy : ℕ
  nmeas : ℕ
  umax : ℝ
  vmax : ℝ

/-- Padded grid size in the first (u) dimension: nx2 = ofx * nx1. -/
def nx2 (p : cparam) : ℕ := p.ofx * p.nx1

/-- Padded grid size in the second (v) dimension: ny2 = ofy * ny1. -/
def ny2 (p : cparam) : ℕ := p.ofy * p.ny1

/-- Compressed-row-storage sparse matrix with real values, as used for the
interpolation kernel.  Modelled from the spec: purify_sparsemat.h is not among
the sources; the fields are the ones purify_measurement_init_cft fills (the
complex value array cvals is NULL on the real-valued path and omitted here). -/
structure purify_sparsemat_row where
  nrows : ℕ
  ncols : ℕ
  nvals : ℕ
  vals : ℕ → ℝ
  colind : ℕ → ℕ
  rowptr : ℕ → ℕ

/-- Forward multiply of a real-valued CSR matrix against a complex vector.
Modelled from the spec: purify_sparsemat_fwd_complexr lives in
purify_sparsemat.c, which is not among the sources; the spec states that
multiply computes out = M in, row r accumulating vals k times in (colind k)
over the entries k of row r. -/
def purify_sparsemat_fwd_complexr (M : purify_sparsemat_row) (x : ℕ → ℂ) (r : ℕ) : ℂ :=
  ∑ k ∈ Finset.Ico (M.rowptr r) (M.rowptr (r + 1)), (M.vals k : ℂ) * x (M.colind k)

/-- Adjoint multiply of a real-valued CSR matrix against a complex vector.
Modelled from the spec: purify_sparsemat_adj_complexr lives in
purify_sparsemat.c, which is not among the sources; the spec states that
multiplyAdjoint computes out = M transposed times in for the real-valued
case (no conjugation of the real coefficients). -/
def purify_sparsemat_adj_complexr (M : purify_sparsemat_row) (y : ℕ → ℂ) (c : ℕ) : ℂ :=
  ∑ r ∈ Finset.range M.nrows, ∑ k ∈ Finset.Ico (M.rowptr r) (M.rowptr (r + 1)),
    if M.colind k = c then (M.vals k : ℂ) * y r else 0

/-- Unit-modulus Fourier kernel exp(2 pi I j / n). -/
def dftK (n : ℕ) (j : ℤ) : ℂ :=
  Complex.exp (2 * Real.pi * Complex.I * j / n)

/-- Unnormalized forward 2D discrete Fourier transform on an n1 by n2 grid
linearized as k1 * n2 + k2.  Modelled from the spec: the code calls
fftw_execute_dft with a forward FFTW plan built by callers outside the
sources; the FFTW forward transform is the unnormalized DFT with negative
exponent. -/
def dftF (n1 n2 : ℕ) (a : ℕ → ℂ) (m : ℕ) : ℂ :=
  ∑ k1 ∈ Finset.range n1, ∑ k2 ∈ Finset.range n2,
    a (k1 * n2 + k2) * dftK n1 (-((m / n2 : ℕ) * k1 : ℤ)) * dftK n2 (-((m % n2 : ℕ) * k2 : ℤ))

/-- Unnormalized backward 2D discrete Fourier transform on an n1 by n2 grid
linearized as k1 * n2 + k2.  Modelled from the spec: purify_measurement_cftadj
receives an inverse FFTW plan; the FFTW backward transform is the unnormalized
DFT with positive exponent. -/
def dftB (n1 n2 : ℕ) (a : ℕ → ℂ) (m : ℕ) : ℂ :=
  ∑ k1 ∈ Finset.range n1, ∑ k2 ∈ Finset.range n2,
    a (k1 * n2 + k2) * dftK n1 ((m / n2 : ℕ) * k1 : ℤ) * dftK n2 ((m % n2 : ℕ) * k2 : ℤ)

/-- Quadrant-swap reordering of a 2D buffer with nx cells per row and ny rows,
stored with index iv * nx + iu.  Modelled from the spec:
purify_utils_fftshift_2d_c lives in purify_utils.c, which is not among the
sources; the spec describes it as the grid-shift reordering equivalent to
swapping FFT quadrants, i.e. a half-period cyclic shift along each axis. -/
def shiftIdx (nx ny m : ℕ) : ℕ :=
  ((m / nx + ny / 2) % ny) * nx + (m % nx + nx / 2) % nx

/-- Reading position of the quadrant swap: the half-period cyclic shift along
each axis of the iv * nx + iu layout. -/
def purify_utils_fftshift_2d_c (nx ny : ℕ) (a : ℕ → ℂ) (m : ℕ) : ℂ :=
  a (shiftIdx nx ny m)

/-- Scalar normalization 1 / sqrt(nx2 * ny2) computed identically by
purify_measurement_cftfwd and purify_measurement_cftadj. -/
def cftScale (p : cparam) : ℝ :=
  1 / Real.sqrt ((nx2 p * ny2 p : ℕ) : ℝ)

/-- Zero padding, scaling and deconvolution step of purify_measurement_cftfwd:
the loop zeroes the padded nx2 by ny2 buffer and writes base pixel (i, j),
read from input index j * nx1 + i, times scale times deconv, to padded index
(j + ny2 / 4) * nx2 + i + nx2 / 4.  Each target cell is written at most once,
so the buffer is rendered by decoding the cell index: cell m with coordinates
iu = m mod nx2, iv = m div nx2 holds the scaled image pixel
(iu - nx2 / 4, iv - ny2 / 4) when that pixel is in range, and zero otherwise. -/
def cftPad (p : cparam) (deconv : ℕ → ℝ) (x : ℕ → ℂ) (m : ℕ) : ℂ :=
  if ny2 p / 4 ≤ m / nx2 p ∧ m / nx2 p < ny2 p / 4 + p.ny1 ∧
      nx2 p / 4 ≤ m % nx2 p ∧ m % nx2 p < nx2 p / 4 + p.nx1 then
    x ((m / nx2 p - ny2 p / 4) * p.nx1 + (m % nx2 p - nx2 p / 4)) * (cftScale p : ℂ) *
      (deconv ((m / nx2 p - ny2 p / 4) * p.nx1 + (m % nx2 p - nx2 p / 4)) : ℂ)
  else 0

/-- Cropping, scaling and deconvolution step of purify_measurement_cftadj:
output pixel m, with i = m mod nx1 and j = m div nx1, reads padded cell
(j + ny2 / 4) * nx2 + i + nx2 / 4, times scale times deconv. -/
def cftCrop (p : cparam) (deconv : ℕ → ℝ) (t : ℕ → ℂ) (m : ℕ) : ℂ :=
  t ((m / p.nx1 + ny2 p / 4) * nx2 p + (m % p.nx1 + nx2 p / 4)) * (cftScale p : ℂ) *
    (deconv m : ℂ)

/-- Forward continuous-visibility measurement operator
purify_measurement_cftfwd: zero-pad and deconvolve the scaled input image into
the padded grid, fftshift, forward FFT, then multiply by the interpolation
sparse matrix. -/
def purify_measurement_cftfwd (p : cparam) (deconv : ℕ → ℝ) (mat : purify_sparsemat_row)
    (x : ℕ → ℂ) (r : ℕ) : ℂ :=
  purify_sparsemat_fwd_complexr mat
    (dftF (ny2 p) (nx2 p) (purify_utils_fftshift_2d_c (nx2 p) (ny2 p) (cftPad p deconv x))) r

/-- Adjoint continuous-visibility measurement operator
purify_measurement_cftadj: sparse-matrix adjoint multiply, inverse FFT,
fftshift, then crop, scale and deconvolve. -/
def purify_measurement_cftadj (p : cparam) (deconv : ℕ → ℝ) (mat : purify_sparsemat_row)
    (y : ℕ → ℂ) (m : ℕ) : ℂ :=
  cftCrop p deconv
    (purify_utils_fftshift_2d_c (nx2 p) (ny2 p)
      (dftB (ny2 p) (nx2 p) (purify_sparsemat_adj_complexr mat y))) m

/-- Symmetrized forward operator purify_measurement_symcftfwd: the
unsymmetrized visibilities fill entries 0 .. nmeas - 1 and the loop appends
their conjugates at entries nmeas .. 2 * nmeas - 1. -/
def purify_measurement_symcftfwd (p : cparam) (deconv : ℕ → ℝ) (mat : purify_sparsemat_row)
    (x : ℕ → ℂ) (k : ℕ) : ℂ :=
  if k < p.nmeas then purify_measurement_cftfwd p deconv mat x k
  else conj (purify_measurement_cftfwd p deconv mat x (k - p.nmeas))

/-- Symmetrized adjoint operator purify_measurement_symcftadj: after the
unsymmetrized adjoint, every output entry is replaced by twice its real part
(imaginary part set to zero). -/
def purify_measurement_symcftadj (p : cparam) (deconv : ℕ → ℝ) (mat : purify_sparsemat_row)
    (y : ℕ → ℂ) (m : ℕ) : ℂ :=
  ((2 * (purify_measurement_cftadj p deconv mat y m).re : ℝ) : ℂ)

/-- Table rescaling factor of purify_measurement_init_cft:
tgtocg = (NGCF - 1) / (nmask + 0.5) with NGCF = 301 and nmask = 2. -/
def tgtocg : ℝ := (301 - 1) / (2 + 0.5)

/-- Gaussian decay constant of purify_measurement_init_cft:
recvar = log 2 / cghwhm / cghwhm with cghwhm = tgtocg * hwhm, hwhm = 0.7. -/
def recvar : ℝ := Real.log 2 / (tgtocg * 0.7) / (tgtocg * 0.7)

/-- Tabulated Gaussian convolution kernel of purify_measurement_init_cft:
convfn i = exp(-recvar * i * i).  The diagnostic dump of this table to the
file convdump.dat is a side effect outside the numerical semantics and is not
modelled. -/
def convfn (i : ℕ) : ℝ := Real.exp (-recvar * i * i)

/-- Grid increment uinc = umax / (n / 2) of purify_measurement_init_cft,
where n / 2 is C integer division of the padded dimension. -/
def coordInc (xmax : ℝ) (n : ℕ) : ℝ := xmax / ((n / 2 : ℕ) : ℝ)

/-- Convolution-table lookup index of purify_measurement_init_cft:
(int)(tgtocg * fabs(iu - ufrc) + 0.5); the argument is nonnegative so the C
cast to int is the floor. -/
def gcfIdx (frc : ℝ) (j : ℤ) : ℤ := ⌊tgtocg * |(j : ℝ) - frc| + 1 / 2⌋

/-- Single-step wraparound of purify_measurement_init_cft: add n if the index
is negative, subtract n if it is at least n. -/
def gridWrap (n : ℕ) (j : ℤ) : ℤ :=
  if j < 0 then j + n else if (n : ℤ) ≤ j then j - n else j

/-- Wrapped u-axis grid cell iu2 of tap a (0 ≤ a < 5) of measurement i in
purify_measurement_init_cft: iu ranges over idu - 2 .. idu + 2 with
idu = floor(u i / uinc + 0.5). -/
def initIu2 (p : cparam) (u : ℕ → ℝ) (i a : ℕ) : ℤ :=
  gridWrap (nx2 p) (⌊u i / coordInc p.umax (nx2 p) + 1 / 2⌋ - 2 + a)

/-- Wrapped v-axis grid cell iv2 of tap b (0 ≤ b < 5) of measurement i in
purify_measurement_init_cft. -/
def initIv2 (p : cparam) (v : ℕ → ℝ) (i b : ℕ) : ℤ :=
  gridWrap (ny2 p) (⌊v i / coordInc p.vmax (ny2 p) + 1 / 2⌋ - 2 + b)

/-- Column index stored by purify_measurement_init_cft for entry k (0 ≤ k < 25)
of measurement i; the loop runs iv outer and iu inner with counter k, so the
tap offsets are b = k div 5 on the v axis and a = k mod 5 on the u axis, and
the stored index is iv2 * nx2 + iu2. -/
def initColind (p : cparam) (u v : ℕ → ℝ) (i k : ℕ) : ℤ :=
  initIv2 p v i (k / 5) * (nx2 p : ℤ) + initIu2 p u i (k % 5)

/-- Interpolation weight stored by purify_measurement_init_cft for entry k of
measurement i: the separable product fv * fu of kernel-table lookups at the
fractional distances of the unwrapped tap cell from the measurement. -/
def initVals (p : cparam) (u v : ℕ → ℝ) (i k : ℕ) : ℝ :=
  convfn (gcfIdx (v i / coordInc p.vmax (ny2 p))
      (⌊v i / coordInc p.vmax (ny2 p) + 1 / 2⌋ - 2 + (k / 5 : ℕ))).toNat *
  convfn (gcfIdx (u i / coordInc p.umax (nx2 p))
      (⌊u i / coordInc p.umax (nx2 p) + 1 / 2⌋ - 2 + (k % 5 : ℕ))).toNat

/-- Sparse interpolation matrix built by purify_measurement_init_cft: nmeas
rows of 25 contiguous entries each, uniform row pointers, column indices and
values as computed in the main loop.  The C column index array holds ints; the
stored integers are proved nonnegative under the documented coordinate
preconditions, and toNat renders them as ℕ indices. -/
def purify_measurement_init_cft (p : cparam) (u v : ℕ → ℝ) : purify_sparsemat_row where
  nrows := p.nmeas
  ncols := nx2 p * ny2 p
  nvals := p.nmeas * 25
  vals := fun n => initVals p u v (n / 25) (n % 25)
  colind := fun n => (initColind p u v (n / 25) (n % 25)).toNat
  rowptr := fun r => r * 25

/-- Deconvolution array produced by purify_measurement_init_cft: all ones on
the nx1 * ny1 base image. -/
def initDeconv : ℕ → ℝ := fun _ => 1

/-- Index guard and linearization of purify_image_ixiy2ind, including the
verbatim guard condition of the source (ix >= img->nx || ix >= img->ny); the
fatal PURIFY_ERROR_GENERIC path is rendered as none. -/
def purify_image_ixiy2ind (nx ny ix iy : ℕ) : Option ℕ :=
  if nx ≤ ix ∨ ny ≤ ix then none else some (ix * ny + iy)

/-- Inverse 2D index computation of purify_image_ind2iuiv; the fatal
PURIFY_ERROR_GENERIC path for ind >= nx * ny is rendered as none. -/
def purify_image_ind2iuiv (nx ny ind : ℕ) : Option (ℕ × ℕ) :=
  if nx * ny ≤ ind then none else some (ind / ny, ind - ind / ny * ny)

/-- Visibility index linearization.  Modelled from the spec:
purify_visibility_iuiv2ind lives in purify_visibility.c, which is not among
the sources; the spec gives the linearization ind = iu * ny + iv used
throughout the spectral transform. -/
def purify_visibility_iuiv2ind (iu iv nx ny : ℕ) : ℕ := iu * ny + iv

/-- Output of the real-to-complex FFT used by purify_measurement_fft_real.
Modelled from the spec: fftw_execute_dft_r2c computes the half plane
iv = 0 .. ny / 2 of the unnormalized DFT of the real input, stored with layout
iu * (ny / 2 + 1) + iv. -/
def rfftHalf (nx ny : ℕ) (x : ℕ → ℝ) (kh : ℕ) : ℂ :=
  dftF nx ny (fun m => (x m : ℂ)) (kh / (ny / 2 + 1) * ny + kh % (ny / 2 + 1))

/-- Sequence of buffer writes performed by the double loop of
purify_measurement_fft_real, in program order: every iteration (iu, iv) copies
the half-plane element to index iuiv2ind iu iv, then the DC element writes
nothing more, the lines iu = 0 and iv = 0 reflect along themselves, and the
interior reflects along the diagonal, each conjugate write guarded by
ind ≠ ind_neg. -/
def fftRealWrites (nx ny : ℕ) (yh : ℕ → ℂ) : List (ℕ × ℂ) :=
  (List.range nx).flatMap fun iu =>
    (List.range (ny / 2 + 1)).flatMap fun iv =>
      (purify_visibility_iuiv2ind iu iv nx ny, yh (iu * (ny / 2 + 1) + iv)) ::
        (if iu = 0 ∧ iv = 0 then []
         else if iu = 0 then
           if purify_visibility_iuiv2ind iu iv nx ny ≠ purify_visibility_iuiv2ind iu (ny - iv) nx ny
           then [(purify_visibility_iuiv2ind iu (ny - iv) nx ny, conj (yh (iu * (ny / 2 + 1) + iv)))]
           else []
         else if iv = 0 then
           if purify_visibility_iuiv2ind iu iv nx ny ≠ purify_visibility_iuiv2ind (nx - iu) iv nx ny
           then [(purify_visibility_iuiv2ind (nx - iu) iv nx ny, conj (yh (iu * (ny / 2 + 1) + iv)))]
           else []
         else
           if purify_visibility_iuiv2ind iu iv nx ny ≠ purify_visibility_iuiv2ind (nx - iu) (ny - iv) nx ny
           then [(purify_visibility_iuiv2ind (nx - iu) (ny - iv) nx ny, conj (yh (iu * (ny / 2 + 1) + iv)))]
           else [])

/-- Replay of a list of array writes, in order, over an initial buffer. -/
def applyWrites (ws : List (ℕ × ℂ)) (init : ℕ → ℂ) : ℕ → ℂ :=
  ws.foldl (fun f kv => Function.update f kv.1 kv.2) init

/-- Forward Fourier transform of a real signal, purify_measurement_fft_real:
a real-to-complex FFT followed by conjugate-symmetry completion of the full
complex plane. -/
def purify_measurement_fft_real (nx ny : ℕ) (x : ℕ → ℝ) : ℕ → ℂ :=
  applyWrites (fftRealWrites nx ny (rfftHalf nx ny x)) (fun _ => 0)

/-- Euclidean norm of the first n entries of a complex vector.  Modelled from
the spec: cblas_dznrm2 is the external BLAS 2-norm primitive. -/
def dznrm2 (n : ℕ) (v : ℕ → ℂ) : ℝ :=
  Real.sqrt (∑ i ∈ Finset.range n, Complex.normSq (v i))

/-- Iteration loop of purify_measurement_pow_meth over an already composed
step (forward then adjoint, or adjoint then forward): while iter < 200,
apply the step, measure the 2-norm, stop returning the new norm once the
relative change (bound - norm) / norm is at most 0.001, otherwise renormalize
and continue; when the budget is exhausted return the last computed norm.
The second component is the final value of the iteration counter. -/
def powLoop (step : (ℕ → ℂ) → ℕ → ℂ) (n iter : ℕ) (v : ℕ → ℂ) (nrm bprev : ℝ) : ℝ × ℕ :=
  if h : iter < 200 then
    if (dznrm2 n (step v) - nrm) / nrm ≤ 0.001 then (dznrm2 n (step v), iter)
    else
      powLoop step n (iter + 1) (fun m => step v m / (dznrm2 n (step v) : ℂ))
        (dznrm2 n (step v)) (dznrm2 n (step v))
  else (bprev, iter)
termination_by 200 - iter
decreasing_by omega

/-- Power method purify_measurement_pow_meth.  The pseudo-random Gaussian
starting vectors drawn from purify_ran_gasdev2 (purify_ran.c is not among the
sources; the spec treats the random source as an external collaborator) enter
as the parameters x0 and y0; the C function returns the first component, and
the final iteration counter is kept as the second component so that the
iteration bound can be stated. -/
def purify_measurement_pow_meth (A At : (ℕ → ℂ) → ℕ → ℂ) (p : cparam)
    (x0 y0 : ℕ → ℂ) : ℝ × ℕ :=
  if p.nx1 * p.ny1 < p.nmeas then
    powLoop (fun w => At (A w)) (p.nx1 * p.ny1) 0
      (fun m => x0 m / (dznrm2 (p.nx1 * p.ny1) x0 : ℂ)) 1 0
  else
    powLoop (fun w => A (At w)) p.nmeas 0
      (fun m => y0 m / (dznrm2 p.nmeas y0 : ℂ)) 1 0

/-- Standard complex inner product on the first n coordinates, conjugate
linear in the first argument. -/
def cdot (n : ℕ) (a b : ℕ → ℂ) : ℂ :=
  ∑ i ∈ Finset.range n, conj (a i) * b i

/-! Basic unfolding lemmas for the power-method loop. -/

lemma powLoop_exhausted (step : (ℕ → ℂ) → ℕ → ℂ) (n iter : ℕ) (v : ℕ → ℂ)
    (nrm bprev : ℝ) (h : 200 ≤ iter) :
    powLoop step n iter v nrm bprev = (bprev, iter) := by
  rw [powLoop]
  simp [show ¬ iter < 200 by omega]

lemma powLoop_converged (step : (ℕ → ℂ) → ℕ → ℂ) (n iter : ℕ) (v : ℕ → ℂ)
    (nrm bprev : ℝ) (h : iter < 200)
    (hc : (dznrm2 n (step v) - nrm) / nrm ≤ 0.001) :
    powLoop step n iter v nrm bprev = (dznrm2 n (step v), iter) := by
  rw [powLoop]
  simp [h, hc]

lemma powLoop_continue (step : (ℕ → ℂ) → ℕ → ℂ) (n iter : ℕ) (v : ℕ → ℂ)
    (nrm bprev : ℝ) (h : iter < 200)
    (hc : ¬ (dznrm2 n (step v) - nrm) / nrm ≤ 0.001) :
    powLoop step n iter v nrm bprev =
      powLoop step n (iter + 1) (fun m => step v m / (dznrm2 n (step v) : ℂ))
        (dznrm2 n (step v)) (dznrm2 n (step v)) := by
  rw [powLoop]
  simp [h, hc]

lemma powLoop_iter_le (step : (ℕ → ℂ) → ℕ → ℂ) (n : ℕ) :
    ∀ (d iter : ℕ) (v : ℕ → ℂ) (nrm bprev : ℝ), 200 - iter ≤ d →
      (powLoop step n iter v nrm bprev).2 ≤ max iter 200 := by
  intro d
  induction d with
  | zero =>
    intro iter v nrm bprev hd
    rw [powLoop_exhausted step n iter v nrm bprev (by omega)]
    exact le_max_left _ _
  | succ d ih =>
    intro iter v nrm bprev hd
    by_cases h : iter < 200
    · by_cases hc : (dznrm2 n (step v) - nrm) / nrm ≤ 0.001
      · rw [powLoop_converged step n iter v nrm bprev h hc]
        exact le_max_of_le_right (le_of_lt h)
      · rw [powLoop_continue step n iter v nrm bprev h hc]
        have h2 := ih (iter + 1) (fun m => step v m / (dznrm2 n (step v) : ℂ))
          (dznrm2 n (step v)) (dznrm2 n (step v)) (by omega)
        have h3 : max (iter + 1) 200 = 200 := by omega
        rw [h3] at h2
        exact le_max_of_le_right h2
    · rw [powLoop_exhausted step n iter v nrm bprev (by omega)]
      exact le_max_left _ _

/-- C7: purify_measurement_pow_meth always terminates: the loop counter never
exceeds 200; the iteration domain is chosen by comparing dimensions (image
space when nmeas > nx1 * ny1, measurement space otherwise); each pass applies
the composed forward-then-adjoint (or adjoint-then-forward) step, measures the
2-norm, stops the first time the relative change is at most 0.001 returning
that norm, otherwise renormalizes and continues; and on exhaustion of the
budget the last computed norm is returned. -/
theorem pow_meth_terminates_within_budget (A At : (ℕ → ℂ) → ℕ → ℂ) (p : cparam)
    (x0 y0 : ℕ → ℂ) (step : (ℕ → ℂ) → ℕ → ℂ) (n iter : ℕ) (v : ℕ → ℂ)
    (nrm bprev : ℝ) (hiter : iter ≤ 200) :
    (purify_measurement_pow_meth A At p x0 y0).2 ≤ 200 ∧
    (p.nx1 * p.ny1 < p.nmeas →
      purify_measurement_pow_meth A At p x0 y0 =
        powLoop (fun w => At (A w)) (p.nx1 * p.ny1) 0
          (fun m => x0 m / (dznrm2 (p.nx1 * p.ny1) x0 : ℂ)) 1 0) ∧
    (p.nmeas ≤ p.nx1 * p.ny1 →
      purify_measurement_pow_meth A At p x0 y0 =
        powLoop (fun w => A (At w)) p.nmeas 0
          (fun m => y0 m / (dznrm2 p.nmeas y0 : ℂ)) 1 0) ∧
    (powLoop step n iter v nrm bprev).2 ≤ 200 ∧
    (iter < 200 → (dznrm2 n (step v) - nrm) / nrm ≤ 0.001 →
      powLoop step n iter v nrm bprev = (dznrm2 n (step v), iter)) ∧
    (iter < 200 → ¬ (dznrm2 n (step v) - nrm) / nrm ≤ 0.001 →
      powLoop step n iter v nrm bprev =
        powLoop step n (iter + 1) (fun m => step v m / (dznrm2 n (step v) : ℂ))
          (dznrm2 n (step v)) (dznrm2 n (step v))) ∧
    (200 ≤ iter → powLoop step n iter v nrm bprev = (bprev, iter)) := by
  refine ⟨?_, ?_, ?_, ?_, ?_, ?_, ?_⟩
  · unfold purify_measurement_pow_meth
    by_cases h : p.nx1 * p.ny1 < p.nmeas
    · rw [if_pos h]
      have := powLoop_iter_le (fun w => At (A w)) (p.nx1 * p.ny1) 200 0
        (fun m => x0 m / (dznrm2 (p.nx1 * p.ny1) x0 : ℂ)) 1 0 (by omega)
      simpa using this
    · rw [if_neg h]
      have := powLoop_iter_le (fun w => A (At w)) p.nmeas 200 0
        (fun m => y0 m / (dznrm2 p.nmeas y0 : ℂ)) 1 0 (by omega)
      simpa using this
  · intro h
    unfold purify_measurement_pow_meth
    rw [if_pos h]
  · intro h
    unfold purify_measurement_pow_meth
    rw [if_neg (by omega)]
  · have := powLoop_iter_le step n 200 iter v nrm bprev (by omega)
    omega
  · exact fun h hc => powLoop_converged step n iter v nrm bprev h hc
  · exact fun h hc => powLoop_continue step n iter v nrm bprev h hc
  · exact fun h => powLoop_exhausted step n iter v nrm bprev h

/-- C7 witness: the termination statement instantiated at a concrete operator
pair and loop state. -/
theorem pow_meth_terminates_within_budget_witness :
    (0 : ℕ) ≤ 200 ∧
    (purify_measurement_pow_meth (fun w => w) (fun w => w)
        ⟨1, 1, 1, 1, 1, 1, 1⟩ (fun _ => 0) (fun _ => 0)).2 ≤ 200 :=
  ⟨by decide, (pow_meth_terminates_within_budget (fun w => w) (fun w => w)
    ⟨1, 1, 1, 1, 1, 1, 1⟩ (fun _ => 0) (fun _ => 0) (fun w => w) 0 0
    (fun _ => 0) 1 0 (by decide)).1⟩

/-- C9: evaluation of the purify_image index guard at concrete inputs.  The
guard of purify_image_ixiy2ind tests ix against both nx and ny and never
tests iy, so the in-bounds request (ix, iy) = (3, 0) on a 4 by 2 image raises
the fatal error, while the out-of-bounds request (ix, iy) = (0, 5) on a 2 by 4
image silently computes an index; moreover the linearization does round-trip
through purify_image_ind2iuiv on an in-bounds pair that passes the guard. -/
theorem ixiy2ind_guard_bug_eval :
    purify_image_ixiy2ind 4 2 3 0 = none ∧ 3 < 4 ∧ 0 < 2 ∧
    purify_image_ixiy2ind 2 4 0 5 = some (0 * 4 + 5) ∧ 4 ≤ 5 ∧
    purify_image_ixiy2ind 2 4 1 3 = some (1 * 4 + 3) ∧
    purify_image_ind2iuiv 2 4 (1 * 4 + 3) = some (1, 3) := by
  decide

/-- C5: purify_measurement_symcftadj returns, at every image index, twice the
real part of the unsymmetrized adjoint result, with imaginary part exactly
zero. -/
theorem symcftadj_doubles_real_part (p : cparam) (deconv : ℕ → ℝ)
    (mat : purify_sparsemat_row) (y : ℕ → ℂ) (i : ℕ) (hi : i < p.nx1 * p.ny1) :
    purify_measurement_symcftadj p deconv mat y i =
      2 * ((purify_measurement_cftadj p deconv mat y i).re : ℂ) ∧
    (purify_measurement_symcftadj p deconv mat y i).im = 0 := by
  constructor
  · simp [purify_measurement_symcftadj]
  · simp [purify_measurement_symcftadj]

/-- C5 witness: the doubling statement instantiated at a concrete parameter
block, matrix and input. -/
theorem symcftadj_doubles_real_part_witness :
    0 < (⟨1, 1, 2, 2, 1, 1, 1⟩ : cparam).nx1 * (⟨1, 1, 2, 2, 1, 1, 1⟩ : cparam).ny1 ∧
    (purify_measurement_symcftadj ⟨1, 1, 2, 2, 1, 1, 1⟩ (fun _ => 1)
        ⟨1, 4, 1, fun _ => 1, fun _ => 0, fun r => r⟩ (fun _ => 0) 0 =
      2 * ((purify_measurement_cftadj ⟨1, 1, 2, 2, 1, 1, 1⟩ (fun _ => 1)
        ⟨1, 4, 1, fun _ => 1, fun _ => 0, fun r => r⟩ (fun _ => 0) 0).re : ℂ) ∧
    (purify_measurement_symcftadj ⟨1, 1, 2, 2, 1, 1, 1⟩ (fun _ => 1)
        ⟨1, 4, 1, fun _ => 1, fun _ => 0, fun r => r⟩ (fun _ => 0) 0).im = 0) :=
  ⟨by decide, symcftadj_doubles_real_part ⟨1, 1, 2, 2, 1, 1, 1⟩ (fun _ => 1)
    ⟨1, 4, 1, fun _ => 1, fun _ => 0, fun r => r⟩ (fun _ => 0) 0 (by decide)⟩

/-- C6: purify_measurement_symcftfwd agrees with purify_measurement_cftfwd on
the first block of nmeas entries, and its second block holds the conjugates of
the first block entrywise. -/
theorem symcftfwd_appends_conjugate_block (p : cparam) (deconv : ℕ → ℝ)
    (mat : purify_sparsemat_row) (x : ℕ → ℂ) (i : ℕ) (hi : i < p.nmeas) :
    purify_measurement_symcftfwd p deconv mat x i =
      purify_measurement_cftfwd p deconv mat x i ∧
    purify_measurement_symcftfwd p deconv mat x (p.nmeas + i) =
      conj (purify_measurement_symcftfwd p deconv mat x i) := by
  have h1 : ¬ p.nmeas + i < p.nmeas := by omega
  constructor
  · simp [purify_measurement_symcftfwd, hi]
  · simp [purify_measurement_symcftfwd, hi, h1]

/-- C6 witness: the block statement instantiated at a concrete parameter
block, matrix and input. -/
theorem symcftfwd_appends_conjugate_block_witness :
    0 < (⟨1, 1, 2, 2, 1, 1, 1⟩ : cparam).nmeas ∧
    (purify_measurement_symcftfwd ⟨1, 1, 2, 2, 1, 1, 1⟩ (fun _ => 1)
        ⟨1, 4, 1, fun _ => 1, fun _ => 0, fun r => r⟩ (fun _ => 0) 0 =
      purify_measurement_cftfwd ⟨1, 1, 2, 2, 1, 1, 1⟩ (fun _ => 1)
        ⟨1, 4, 1, fun _ => 1, fun _ => 0, fun r => r⟩ (fun _ => 0) 0 ∧
    purify_measurement_symcftfwd ⟨1, 1, 2, 2, 1, 1, 1⟩ (fun _ => 1)
        ⟨1, 4, 1, fun _ => 1, fun _ => 0, fun r => r⟩ (fun _ => 0)
        ((⟨1, 1, 2, 2, 1, 1, 1⟩ : cparam).nmeas + 0) =
      conj (purify_measurement_symcftfwd ⟨1, 1, 2, 2, 1, 1, 1⟩ (fun _ => 1)
        ⟨1, 4, 1, fun _ => 1, fun _ => 0, fun r => r⟩ (fun _ => 0) 0)) :=
  ⟨by decide, symcftfwd_appends_conjugate_block ⟨1, 1, 2, 2, 1, 1, 1⟩ (fun _ => 1)
    ⟨1, 4, 1, fun _ => 1, fun _ => 0, fun r => r⟩ (fun _ => 0) 0 (by decide)⟩

/-! Bounds for the kernel-table lookups and the wrapped column indices of
purify_measurement_init_cft. -/

lemma gcfIdx_window_bound (frc : ℝ) (a : ℕ) (ha : a < 5) :
    0 ≤ gcfIdx frc (⌊frc + 1 / 2⌋ - 2 + a) ∧
    gcfIdx frc (⌊frc + 1 / 2⌋ - 2 + a) < 301 := by
  have htg : tgtocg = 120 := by norm_num [tgtocg]
  have h1 : (⌊frc + 1 / 2⌋ : ℝ) ≤ frc + 1 / 2 := Int.floor_le _
  have h2 : frc + 1 / 2 - 1 < (⌊frc + 1 / 2⌋ : ℝ) := Int.sub_one_lt_floor _
  have ha4 : (a : ℝ) ≤ 4 := by exact_mod_cast Nat.lt_succ_iff.mp ha
  have ha0 : (0 : ℝ) ≤ (a : ℝ) := Nat.cast_nonneg a
  have hj : |(⌊frc + 1 / 2⌋ : ℝ) - 2 + a - frc| ≤ 5 / 2 := by
    rw [abs_le]
    constructor <;> nlinarith
  constructor
  · unfold gcfIdx
    rw [htg]
    refine Int.floor_nonneg.mpr ?_
    positivity
  · unfold gcfIdx
    rw [htg, Int.floor_lt]
    push_cast
    nlinarith

/-- C10: for any measurement coordinates whatsoever, both convolution-table
lookup indices computed by purify_measurement_init_cft for any tap k of the
5 by 5 support window lie in the table range 0 .. 300. -/
theorem init_cft_table_lookup_in_bounds (p : cparam) (u v : ℕ → ℝ) (i k : ℕ)
    (hk : k < 25) :
    (0 ≤ gcfIdx (u i / coordInc p.umax (nx2 p))
        (⌊u i / coordInc p.umax (nx2 p) + 1 / 2⌋ - 2 + (k % 5 : ℕ)) ∧
      gcfIdx (u i / coordInc p.umax (nx2 p))
        (⌊u i / coordInc p.umax (nx2 p) + 1 / 2⌋ - 2 + (k % 5 : ℕ)) < 301) ∧
    (0 ≤ gcfIdx (v i / coordInc p.vmax (ny2 p))
        (⌊v i / coordInc p.vmax (ny2 p) + 1 / 2⌋ - 2 + (k / 5 : ℕ)) ∧
      gcfIdx (v i / coordInc p.vmax (ny2 p))
        (⌊v i / coordInc p.vmax (ny2 p) + 1 / 2⌋ - 2 + (k / 5 : ℕ)) < 301) :=
  ⟨gcfIdx_window_bound _ _ (by omega), gcfIdx_window_bound _ _ (by omega)⟩

/-- C10 witness: the table-lookup bound instantiated at concrete parameters,
coordinates and tap. -/
theorem init_cft_table_lookup_in_bounds_witness :
    (0 : ℕ) < 25 ∧
    0 ≤ gcfIdx ((fun _ => (0 : ℝ)) 0 / coordInc (⟨1, 1, 2, 2, 1, 1, 1⟩ : cparam).umax
        (nx2 ⟨1, 1, 2, 2, 1, 1, 1⟩))
      (⌊(fun _ => (0 : ℝ)) 0 / coordInc (⟨1, 1, 2, 2, 1, 1, 1⟩ : cparam).umax
        (nx2 ⟨1, 1, 2, 2, 1, 1, 1⟩) + 1 / 2⌋ - 2 + ((0 : ℕ) % 5 : ℕ)) :=
  ⟨by decide, (init_cft_table_lookup_in_bounds ⟨1, 1, 2, 2, 1, 1, 1⟩
    (fun _ => 0) (fun _ => 0) 0 0 (by decide)).1.1⟩

lemma gridWrap_window_bound (xmax x : ℝ) (n : ℕ) (h4 : 4 ≤ n) (h2 : 2 ∣ n)
    (hlo : -xmax < x) (hhi : x ≤ xmax) (a : ℕ) (ha : a < 5) :
    0 ≤ gridWrap n (⌊x / coordInc xmax n + 1 / 2⌋ - 2 + a) ∧
    gridWrap n (⌊x / coordInc xmax n + 1 / 2⌋ - 2 + a) < n := by
  obtain ⟨c, hc⟩ := h2
  have hc2 : 2 ≤ c := by omega
  have hn2 : (n / 2 : ℕ) = c := by omega
  have hxmax : 0 < xmax := by linarith
  have hcR : (0 : ℝ) < (c : ℝ) := by
    have : 0 < c := by omega
    exact_mod_cast this
  have hincR : coordInc xmax n = xmax / (c : ℝ) := by rw [coordInc, hn2]
  have hfrc : x / coordInc xmax n = x * c / xmax := by
    rw [hincR, div_div_eq_mul_div]
  have hfrc_hi : x / coordInc xmax n ≤ (c : ℝ) := by
    rw [hfrc, div_le_iff₀ hxmax]
    nlinarith
  have hfrc_lo : -(c : ℝ) < x / coordInc xmax n := by
    rw [hfrc, lt_div_iff₀ hxmax]
    nlinarith
  have hFhi : ⌊x / coordInc xmax n + 1 / 2⌋ ≤ (c : ℤ) := by
    have : ⌊x / coordInc xmax n + 1 / 2⌋ < (c : ℤ) + 1 := by
      rw [Int.floor_lt]
      push_cast
      linarith
    omega
  have hFlo : -(c : ℤ) ≤ ⌊x / coordInc xmax n + 1 / 2⌋ := by
    rw [Int.le_floor]
    push_cast
    linarith
  have hnZ : (n : ℤ) = 2 * (c : ℤ) := by exact_mod_cast hc
  have haZ : (a : ℤ) ≤ 4 := by exact_mod_cast Nat.lt_succ_iff.mp ha
  have haZ0 : (0 : ℤ) ≤ (a : ℤ) := Int.ofNat_nonneg a
  have hcZ : (2 : ℤ) ≤ (c : ℤ) := by exact_mod_cast hc2
  unfold gridWrap
  split_ifs <;> omega

/-- C8: under the documented coordinate preconditions u in (-umax, umax] and
v in (-vmax, vmax], and padded dimensions that are even and at least 4, every
column index written by purify_measurement_init_cft lies in [0, ncols), so the
single-step wraparound always lands the support window inside the padded
grid. -/
theorem init_cft_colind_in_bounds (p : cparam) (u v : ℕ → ℝ)
    (hx4 : 4 ≤ nx2 p) (hy4 : 4 ≤ ny2 p) (hx2 : 2 ∣ nx2 p) (hy2 : 2 ∣ ny2 p)
    (hu : ∀ i < p.nmeas, -p.umax < u i ∧ u i ≤ p.umax)
    (hv : ∀ i < p.nmeas, -p.vmax < v i ∧ v i ≤ p.vmax)
    (i k : ℕ) (hi : i < p.nmeas) (hk : k < 25) :
    0 ≤ initColind p u v i k ∧
    initColind p u v i k < ((purify_measurement_init_cft p u v).ncols : ℤ) := by
  obtain ⟨hu1, hu2⟩ := hu i hi
  obtain ⟨hv1, hv2⟩ := hv i hi
  have hU := gridWrap_window_bound p.umax (u i) (nx2 p) hx4 hx2 hu1 hu2 (k % 5) (by omega)
  have hV := gridWrap_window_bound p.vmax (v i) (ny2 p) hy4 hy2 hv1 hv2 (k / 5) (by omega)
  have hncols : ((purify_measurement_init_cft p u v).ncols : ℤ) =
      (nx2 p : ℤ) * (ny2 p : ℤ) := by
    show ((nx2 p * ny2 p : ℕ) : ℤ) = (nx2 p : ℤ) * (ny2 p : ℤ)
    push_cast
    ring
  rw [hncols, initColind, initIu2, initIv2]
  have hXnn : (0 : ℤ) ≤ (nx2 p : ℤ) := Int.ofNat_nonneg _
  constructor
  · nlinarith [hU.1, hV.1]
  · nlinarith [hU.1, hU.2, hV.1, hV.2]

/-- C8 witness: the column-index bound instantiated at concrete parameters
and coordinates. -/
theorem init_cft_colind_in_bounds_witness :
    4 ≤ nx2 ⟨1, 1, 4, 4, 1, 1, 1⟩ ∧
    0 ≤ initColind ⟨1, 1, 4, 4, 1, 1, 1⟩ (fun _ => 0) (fun _ => 0) 0 0 :=
  ⟨by decide, (init_cft_colind_in_bounds ⟨1, 1, 4, 4, 1, 1, 1⟩
    (fun _ => 0) (fun _ => 0) (by decide) (by decide) (by decide) (by decide)
    (fun i _ => by constructor <;> norm_num)
    (fun i _ => by constructor <;> norm_num) 0 0 (by decide) (by decide)).1⟩

/-- C2 counterexample: with nx1 = 2, ny1 = 1, ofx = ofy = 2 (so nx2 = 4,
ny2 = 2), coordinates u = v = 0 and umax = vmax = 1, tap k = 3 of measurement
0 has wrapped cell (iu2, iv2) = (1, 0); the code stores column index
iv2 * nx2 + iu2 = 1, whereas the claimed convention iu2 * ny2 + iv2 gives 2. -/
theorem init_cft_colind_transposed_counterexample :
    initIu2 ⟨2, 1, 2, 2, 1, 1, 1⟩ (fun _ => 0) 0 3 = 1 ∧
    initIv2 ⟨2, 1, 2, 2, 1, 1, 1⟩ (fun _ => 0) 0 0 = 0 ∧
    initColind ⟨2, 1, 2, 2, 1, 1, 1⟩ (fun _ => 0) (fun _ => 0) 0 3 = 1 ∧
    initIu2 ⟨2, 1, 2, 2, 1, 1, 1⟩ (fun _ => 0) 0 3 * (ny2 ⟨2, 1, 2, 2, 1, 1, 1⟩ : ℤ) +
      initIv2 ⟨2, 1, 2, 2, 1, 1, 1⟩ (fun _ => 0) 0 0 = 2 ∧
    initColind ⟨2, 1, 2, 2, 1, 1, 1⟩ (fun _ => 0) (fun _ => 0) 0 3 ≠
      initIu2 ⟨2, 1, 2, 2, 1, 1, 1⟩ (fun _ => 0) 0 3 * (ny2 ⟨2, 1, 2, 2, 1, 1, 1⟩ : ℤ) +
      initIv2 ⟨2, 1, 2, 2, 1, 1, 1⟩ (fun _ => 0) 0 0 := by
  have hz : ∀ cc : ℝ, ⌊(0 : ℝ) / cc + 1 / 2⌋ = (0 : ℤ) := by
    intro cc
    rw [zero_div, zero_add, Int.floor_eq_zero_iff]
    constructor <;> norm_num
  have hu : initIu2 ⟨2, 1, 2, 2, 1, 1, 1⟩ (fun _ => 0) 0 3 = 1 := by
    simp only [initIu2]
    rw [hz]
    norm_num [gridWrap, nx2]
  have hv : initIv2 ⟨2, 1, 2, 2, 1, 1, 1⟩ (fun _ => 0) 0 0 = 0 := by
    simp only [initIv2]
    rw [hz]
    norm_num [gridWrap, ny2]
  have hcol : initColind ⟨2, 1, 2, 2, 1, 1, 1⟩ (fun _ => 0) (fun _ => 0) 0 3 = 1 := by
    simp only [initColind]
    norm_num [hu, hv, nx2]
  refine ⟨hu, hv, hcol, ?_, ?_⟩
  · rw [hu, hv]
    norm_num [ny2]
  · rw [hu, hv, hcol]
    norm_num [ny2]

/-- C2 as amended: the gridding components of purify_measurement_gauss.c share
the transposed linearization ind = iy * nx + ix rather than ix * ny + iy:
purify_measurement_init_cft stores column index iv2 * nx2 + iu2 for wrapped
cell (iu2, iv2), and purify_measurement_cftfwd places base pixel (i, j), read
from input index j * nx1 + i, at padded index (j + ny2 / 4) * nx2 + i + nx2 / 4
of the zero-padded buffer. -/
theorem gridding_linearization_consistent (p : cparam) (u v : ℕ → ℝ)
    (deconv : ℕ → ℝ) (x : ℕ → ℂ) (mI kI i j : ℕ) (hi : i < p.nx1) (hj : j < p.ny1)
    (hfit : nx2 p / 4 + p.nx1 ≤ nx2 p) :
    initColind p u v mI kI =
      initIv2 p v mI (kI / 5) * (nx2 p : ℤ) + initIu2 p u mI (kI % 5) ∧
    cftPad p deconv x ((j + ny2 p / 4) * nx2 p + (i + nx2 p / 4)) =
      x (j * p.nx1 + i) * (cftScale p : ℂ) * (deconv (j * p.nx1 + i) : ℂ) := by
  have hx0 : 0 < nx2 p := by omega
  have hlt : i + nx2 p / 4 < nx2 p := by omega
  have hdiv : ((j + ny2 p / 4) * nx2 p + (i + nx2 p / 4)) / nx2 p = j + ny2 p / 4 := by
    rw [mul_comm, Nat.mul_add_div hx0, Nat.div_eq_of_lt hlt, add_zero]
  have hmod : ((j + ny2 p / 4) * nx2 p + (i + nx2 p / 4)) % nx2 p = i + nx2 p / 4 := by
    rw [mul_comm, Nat.mul_add_mod, Nat.mod_eq_of_lt hlt]
  refine ⟨rfl, ?_⟩
  rw [cftPad, hdiv, hmod, if_pos]
  · have e1 : j + ny2 p / 4 - ny2 p / 4 = j := by omega
    have e2 : i + nx2 p / 4 - nx2 p / 4 = i := by omega
    rw [e1, e2]
  · omega

/-- C2 amended witness: the consistent-linearization statement instantiated at
a concrete parameter block, pixel and tap. -/
theorem gridding_linearization_consistent_witness :
    (0 : ℕ) < (⟨2, 1, 2, 2, 1, 1, 1⟩ : cparam).nx1 ∧
    cftPad ⟨2, 1, 2, 2, 1, 1, 1⟩ (fun _ => 1) (fun _ => 1)
        ((0 + ny2 ⟨2, 1, 2, 2, 1, 1, 1⟩ / 4) * nx2 ⟨2, 1, 2, 2, 1, 1, 1⟩ +
          (0 + nx2 ⟨2, 1, 2, 2, 1, 1, 1⟩ / 4)) =
      (fun _ => (1 : ℂ)) (0 * (⟨2, 1, 2, 2, 1, 1, 1⟩ : cparam).nx1 + 0) *
        (cftScale ⟨2, 1, 2, 2, 1, 1, 1⟩ : ℂ) *
        ((fun _ => (1 : ℝ)) (0 * (⟨2, 1, 2, 2, 1, 1, 1⟩ : cparam).nx1 + 0) : ℂ) :=
  ⟨by decide, (gridding_linearization_consistent ⟨2, 1, 2, 2, 1, 1, 1⟩
    (fun _ => 0) (fun _ => 0) (fun _ => 1) (fun _ => 1) 0 0 0 0
    (by decide) (by decide) (by decide)).2⟩

/-! Index arithmetic for the linearized 2D grids. -/

lemma encode_div (n2 q p : ℕ) (hp : p < n2) : (q * n2 + p) / n2 = q := by
  rw [mul_comm, Nat.mul_add_div (by omega), Nat.div_eq_of_lt hp, add_zero]

lemma encode_mod (n2 q p : ℕ) (hp : p < n2) : (q * n2 + p) % n2 = p := by
  rw [mul_comm, Nat.mul_add_mod, Nat.mod_eq_of_lt hp]

lemma encode_lt (n1 n2 q p : ℕ) (hq : q < n1) (hp : p < n2) : q * n2 + p < n1 * n2 := by
  have h1 : q * n2 + p < q * n2 + n2 := by omega
  have h2 : q * n2 + n2 = (q + 1) * n2 := by ring
  have h3 : (q + 1) * n2 ≤ n1 * n2 := Nat.mul_le_mul_right n2 (by omega)
  omega

lemma sum_range_mul_eq (n1 n2 : ℕ) (f : ℕ → ℂ) :
    ∑ m ∈ Finset.range (n1 * n2), f m =
    ∑ q ∈ Finset.range n1, ∑ p ∈ Finset.range n2, f (q * n2 + p) := by
  rcases Nat.eq_zero_or_pos n2 with h0 | hpos
  · subst h0
    simp
  · rw [← Finset.sum_product']
    refine Finset.sum_nbij' (fun m => (m / n2, m % n2)) (fun z => z.1 * n2 + z.2)
      ?_ ?_ ?_ ?_ ?_
    · intro m hm
      rw [Finset.mem_range] at hm
      rw [Finset.mem_product, Finset.mem_range, Finset.mem_range]
      exact ⟨(Nat.div_lt_iff_lt_mul hpos).mpr hm, Nat.mod_lt _ hpos⟩
    · intro z hz
      rw [Finset.mem_product, Finset.mem_range, Finset.mem_range] at hz
      rw [Finset.mem_range]
      exact encode_lt n1 n2 z.1 z.2 hz.1 hz.2
    · intro m hm
      show m / n2 * n2 + m % n2 = m
      rw [mul_comm]
      exact Nat.div_add_mod m n2
    · intro z hz
      rw [Finset.mem_product, Finset.mem_range, Finset.mem_range] at hz
      exact Prod.ext (encode_div n2 z.1 z.2 hz.2) (encode_mod n2 z.1 z.2 hz.2)
    · intro m hm
      show f m = f (m / n2 * n2 + m % n2)
      rw [mul_comm, Nat.div_add_mod m n2]

/-! Properties of the Fourier kernel. -/

lemma dftK_conj (n : ℕ) (j : ℤ) : conj (dftK n j) = dftK n (-j) := by
  unfold dftK
  rw [← Complex.exp_conj]
  congr 1
  rw [map_div₀]
  push_cast
  simp only [map_mul, Complex.conj_I, Complex.conj_ofReal, map_ofNat, map_intCast, map_natCast]
  ring

lemma dftF_flat (n1 n2 : ℕ) (a : ℕ → ℂ) (m : ℕ) :
    dftF n1 n2 a m = ∑ j ∈ Finset.range (n1 * n2),
      a j * dftK n1 (-((m / n2 : ℕ) * (j / n2 : ℕ) : ℤ)) *
        dftK n2 (-((m % n2 : ℕ) * (j % n2 : ℕ) : ℤ)) := by
  rw [sum_range_mul_eq]
  unfold dftF
  refine Finset.sum_congr rfl fun q hq => Finset.sum_congr rfl fun p hp => ?_
  rw [Finset.mem_range] at hp
  rw [encode_div n2 q p hp, encode_mod n2 q p hp]

lemma dftB_flat (n1 n2 : ℕ) (b : ℕ → ℂ) (m : ℕ) :
    dftB n1 n2 b m = ∑ j ∈ Finset.range (n1 * n2),
      b j * dftK n1 ((j / n2 : ℕ) * (m / n2 : ℕ) : ℤ) *
        dftK n2 ((j % n2 : ℕ) * (m % n2 : ℕ) : ℤ) := by
  rw [sum_range_mul_eq]
  unfold dftB
  refine Finset.sum_congr rfl fun q hq => Finset.sum_congr rfl fun p hp => ?_
  rw [Finset.mem_range] at hp
  rw [encode_div n2 q p hp, encode_mod n2 q p hp,
    mul_comm ((q : ℤ)) ((m / n2 : ℕ) : ℤ), mul_comm ((p : ℤ)) ((m % n2 : ℕ) : ℤ)]

lemma dft_adjoint (n1 n2 : ℕ) (a b : ℕ → ℂ) :
    cdot (n1 * n2) (dftF n1 n2 a) b = cdot (n1 * n2) a (dftB n1 n2 b) := by
  unfold cdot
  calc ∑ m ∈ Finset.range (n1 * n2), conj (dftF n1 n2 a m) * b m
      = ∑ m ∈ Finset.range (n1 * n2), ∑ j ∈ Finset.range (n1 * n2),
          conj (a j) * (dftK n1 ((m / n2 : ℕ) * (j / n2 : ℕ) : ℤ) *
            dftK n2 ((m % n2 : ℕ) * (j % n2 : ℕ) : ℤ) * b m) := by
        refine Finset.sum_congr rfl fun m hm => ?_
        rw [dftF_flat, map_sum, Finset.sum_mul]
        refine Finset.sum_congr rfl fun j hj => ?_
        rw [map_mul, map_mul, dftK_conj, dftK_conj, neg_neg, neg_neg]
        ring
    _ = ∑ j ∈ Finset.range (n1 * n2), conj (a j) * dftB n1 n2 b j := by
        rw [Finset.sum_comm]
        refine Finset.sum_congr rfl fun j hj => ?_
        rw [dftB_flat, Finset.mul_sum]
        refine Finset.sum_congr rfl fun m hm => ?_
        rw [mul_comm ((m / n2 : ℕ) : ℤ) ((j / n2 : ℕ) : ℤ),
          mul_comm ((m % n2 : ℕ) : ℤ) ((j % n2 : ℕ) : ℤ)]
        ring

/-! The quadrant swap is an involutive permutation of the grid when both
dimensions are even, hence self-adjoint. -/

lemma half_shift_invol (h q : ℕ) (hq : q < 2 * h) :
    ((q + h) % (2 * h) + h) % (2 * h) = q := by
  rcases Nat.lt_or_ge q h with h1 | h1
  · have e1 : (q + h) % (2 * h) = q + h := Nat.mod_eq_of_lt (by omega)
    rw [e1, show q + h + h = q + 2 * h by ring, Nat.add_mod_right,
      Nat.mod_eq_of_lt hq]
  · have e1 : (q + h) % (2 * h) = q - h := by
      rw [Nat.mod_eq_sub_mod (by omega), Nat.mod_eq_of_lt (by omega)]
      omega
    rw [e1, show q - h + h = q by omega, Nat.mod_eq_of_lt hq]

lemma shiftIdx_lt (nx ny m : ℕ) (hx : 0 < nx) (hy : 0 < ny) :
    shiftIdx nx ny m < nx * ny := by
  unfold shiftIdx
  have h1 : (m / nx + ny / 2) % ny < ny := Nat.mod_lt _ hy
  have h2 : (m % nx + nx / 2) % nx < nx := Nat.mod_lt _ hx
  have h3 : ((m / nx + ny / 2) % ny) * nx + (m % nx + nx / 2) % nx <
      ((m / nx + ny / 2) % ny + 1) * nx := by
    have : ((m / nx + ny / 2) % ny + 1) * nx = ((m / nx + ny / 2) % ny) * nx + nx := by
      ring
    omega
  have h4 : ((m / nx + ny / 2) % ny + 1) * nx ≤ ny * nx :=
    Nat.mul_le_mul_right nx (by omega)
  have h5 : ny * nx = nx * ny := by ring
  omega

lemma shiftIdx_invol (nx ny m : ℕ) (hx : 2 ∣ nx) (hy : 2 ∣ ny) (hm : m < nx * ny) :
    shiftIdx nx ny (shiftIdx nx ny m) = m := by
  obtain ⟨cx, hcx⟩ := hx
  obtain ⟨cy, hcy⟩ := hy
  subst hcx
  subst hcy
  have hx0 : 0 < 2 * cx := by
    rcases Nat.eq_zero_or_pos cx with h | h
    · subst h; simp at hm
    · omega
  have hhx : 2 * cx / 2 = cx := by omega
  have hhy : 2 * cy / 2 = cy := by omega
  have hP : (m % (2 * cx) + cx) % (2 * cx) < 2 * cx := Nat.mod_lt _ hx0
  have hdivlt : m / (2 * cx) < 2 * cy := by
    refine (Nat.div_lt_iff_lt_mul hx0).mpr ?_
    have e : 2 * cy * (2 * cx) = 2 * cx * (2 * cy) := by ring
    omega
  unfold shiftIdx
  rw [hhx, hhy]
  rw [encode_div (2 * cx) _ _ hP, encode_mod (2 * cx) _ _ hP]
  rw [half_shift_invol cy (m / (2 * cx)) hdivlt,
    half_shift_invol cx (m % (2 * cx)) (Nat.mod_lt _ hx0),
    mul_comm, Nat.div_add_mod]

lemma fftshift_adjoint (nx ny : ℕ) (hx : 2 ∣ nx) (hy : 2 ∣ ny) (a b : ℕ → ℂ) :
    cdot (nx * ny) (purify_utils_fftshift_2d_c nx ny a) b =
    cdot (nx * ny) a (purify_utils_fftshift_2d_c nx ny b) := by
  unfold cdot purify_utils_fftshift_2d_c
  refine Finset.sum_nbij' (fun m => shiftIdx nx ny m) (fun m => shiftIdx nx ny m)
    ?_ ?_ ?_ ?_ ?_
  · intro m hm
    rw [Finset.mem_range] at *
    have hx0 : 0 < nx := by
      rcases Nat.eq_zero_or_pos nx with h | h
      · subst h; simp at hm
      · exact h
    have hy0 : 0 < ny := by
      rcases Nat.eq_zero_or_pos ny with h | h
      · subst h; simp at hm
      · exact h
    exact shiftIdx_lt nx ny m hx0 hy0
  · intro m hm
    rw [Finset.mem_range] at *
    have hx0 : 0 < nx := by
      rcases Nat.eq_zero_or_pos nx with h | h
      · subst h; simp at hm
      · exact h
    have hy0 : 0 < ny := by
      rcases Nat.eq_zero_or_pos ny with h | h
      · subst h; simp at hm
      · exact h
    exact shiftIdx_lt nx ny m hx0 hy0
  · intro m hm
    rw [Finset.mem_range] at hm
    exact shiftIdx_invol nx ny m hx hy hm
  · intro m hm
    rw [Finset.mem_range] at hm
    exact shiftIdx_invol nx ny m hx hy hm
  · intro m hm
    rw [Finset.mem_range] at hm
    rw [shiftIdx_invol nx ny m hx hy hm]

/-! Padding and cropping are mutual adjoints on the quarter-offset window. -/

lemma cftPad_outside (p : cparam) (dv : ℕ → ℝ) (x : ℕ → ℂ) (m : ℕ)
    (h : ¬ (ny2 p / 4 ≤ m / nx2 p ∧ m / nx2 p < ny2 p / 4 + p.ny1 ∧
      nx2 p / 4 ≤ m % nx2 p ∧ m % nx2 p < nx2 p / 4 + p.nx1)) :
    cftPad p dv x m = 0 := by
  rw [cftPad, if_neg h]

lemma cftPad_window (p : cparam) (dv : ℕ → ℝ) (x : ℕ → ℂ) (i j : ℕ)
    (hi : i < p.nx1) (hj : j < p.ny1) (hfx : nx2 p / 4 + p.nx1 ≤ nx2 p) :
    cftPad p dv x ((j + ny2 p / 4) * nx2 p + (i + nx2 p / 4)) =
      x (j * p.nx1 + i) * (cftScale p : ℂ) * (dv (j * p.nx1 + i) : ℂ) := by
  have hlt : i + nx2 p / 4 < nx2 p := by omega
  rw [cftPad, encode_div (nx2 p) _ _ hlt, encode_mod (nx2 p) _ _ hlt, if_pos (by omega)]
  have e1 : j + ny2 p / 4 - ny2 p / 4 = j := by omega
  have e2 : i + nx2 p / 4 - nx2 p / 4 = i := by omega
  rw [e1, e2]

lemma cftCrop_eval (p : cparam) (dv : ℕ → ℝ) (t : ℕ → ℂ) (i j : ℕ)
    (hi : i < p.nx1) :
    cftCrop p dv t (j * p.nx1 + i) =
      t ((j + ny2 p / 4) * nx2 p + (i + nx2 p / 4)) * (cftScale p : ℂ) *
        (dv (j * p.nx1 + i) : ℂ) := by
  rw [cftCrop, encode_div p.nx1 j i hi, encode_mod p.nx1 j i hi]

lemma pad_crop_adjoint (p : cparam) (dv : ℕ → ℝ) (x t : ℕ → ℂ)
    (hfx : nx2 p / 4 + p.nx1 ≤ nx2 p) (hfy : ny2 p / 4 + p.ny1 ≤ ny2 p) :
    cdot (nx2 p * ny2 p) (cftPad p dv x) t = cdot (p.nx1 * p.ny1) x (cftCrop p dv t) := by
  unfold cdot
  rw [show nx2 p * ny2 p = ny2 p * nx2 p by ring, sum_range_mul_eq]
  rw [show p.nx1 * p.ny1 = p.ny1 * p.nx1 by ring, sum_range_mul_eq]
  calc ∑ iv ∈ Finset.range (ny2 p), ∑ iu ∈ Finset.range (nx2 p),
        conj (cftPad p dv x (iv * nx2 p + iu)) * t (iv * nx2 p + iu)
      = ∑ iv ∈ Finset.Ico (ny2 p / 4) (ny2 p / 4 + p.ny1), ∑ iu ∈ Finset.range (nx2 p),
          conj (cftPad p dv x (iv * nx2 p + iu)) * t (iv * nx2 p + iu) := by
        refine (Finset.sum_subset ?_ ?_).symm
        · intro a ha
          rw [Finset.mem_Ico] at ha
          rw [Finset.mem_range]
          omega
        · intro iv hiv hout
          rw [Finset.mem_Ico] at hout
          refine Finset.sum_eq_zero fun iu hiu => ?_
          rw [Finset.mem_range] at hiu
          rw [cftPad_outside]
          · rw [map_zero, zero_mul]
          · rw [encode_div (nx2 p) iv iu hiu]
            omega
    _ = ∑ iv ∈ Finset.Ico (ny2 p / 4) (ny2 p / 4 + p.ny1),
          ∑ iu ∈ Finset.Ico (nx2 p / 4) (nx2 p / 4 + p.nx1),
          conj (cftPad p dv x (iv * nx2 p + iu)) * t (iv * nx2 p + iu) := by
        refine Finset.sum_congr rfl fun iv hiv => ?_
        refine (Finset.sum_subset ?_ ?_).symm
        · intro a ha
          rw [Finset.mem_Ico] at ha
          rw [Finset.mem_range]
          omega
        · intro iu hiu hout
          rw [Finset.mem_range] at hiu
          rw [Finset.mem_Ico] at hout
          rw [cftPad_outside]
          · rw [map_zero, zero_mul]
          · rw [encode_div (nx2 p) iv iu hiu, encode_mod (nx2 p) iv iu hiu]
            omega
    _ = ∑ j ∈ Finset.range (p.ny1), ∑ i ∈ Finset.range (p.nx1),
          conj (cftPad p dv x ((ny2 p / 4 + j) * nx2 p + (nx2 p / 4 + i))) *
            t ((ny2 p / 4 + j) * nx2 p + (nx2 p / 4 + i)) := by
        rw [Finset.sum_Ico_eq_sum_range,
          show ny2 p / 4 + p.ny1 - ny2 p / 4 = p.ny1 by omega]
        refine Finset.sum_congr rfl fun j hj => ?_
        rw [Finset.sum_Ico_eq_sum_range,
          show nx2 p / 4 + p.nx1 - nx2 p / 4 = p.nx1 by omega]
    _ = ∑ j ∈ Finset.range (p.ny1), ∑ i ∈ Finset.range (p.nx1),
          conj (x (j * p.nx1 + i)) * cftCrop p dv t (j * p.nx1 + i) := by
        refine Finset.sum_congr rfl fun j hj => Finset.sum_congr rfl fun i hi => ?_
        rw [Finset.mem_range] at hj hi
        rw [show ny2 p / 4 + j = j + ny2 p / 4 by omega,
          show nx2 p / 4 + i = i + nx2 p / 4 by omega,
          cftPad_window p dv x i j hi hj hfx, cftCrop_eval p dv t i j hi,
          map_mul, map_mul, Complex.conj_ofReal, Complex.conj_ofReal]
        ring

/-! Adjointness of the CSR multiply pair for matrices with uniform row
pointers and in-range column indices. -/

lemma sparse_adjoint (M : purify_sparsemat_row) (K : ℕ)
    (hK : ∀ r, M.rowptr r = r * K)
    (hcol : ∀ k, k < M.nrows * K → M.colind k < M.ncols) (t y : ℕ → ℂ) :
    cdot M.nrows (purify_sparsemat_fwd_complexr M t) y =
    cdot M.ncols t (purify_sparsemat_adj_complexr M y) := by
  unfold cdot purify_sparsemat_fwd_complexr purify_sparsemat_adj_complexr
  simp only [hK]
  calc ∑ r ∈ Finset.range M.nrows,
        conj (∑ k ∈ Finset.Ico (r * K) ((r + 1) * K), (M.vals k : ℂ) * t (M.colind k)) * y r
      = ∑ r ∈ Finset.range M.nrows, ∑ k ∈ Finset.Ico (r * K) ((r + 1) * K),
          (M.vals k : ℂ) * conj (t (M.colind k)) * y r := by
        refine Finset.sum_congr rfl fun r hr => ?_
        rw [map_sum, Finset.sum_mul]
        refine Finset.sum_congr rfl fun k hk => ?_
        rw [map_mul, Complex.conj_ofReal]
    _ = ∑ c ∈ Finset.range M.ncols, conj (t c) *
          ∑ r ∈ Finset.range M.nrows, ∑ k ∈ Finset.Ico (r * K) ((r + 1) * K),
            (if M.colind k = c then (M.vals k : ℂ) * y r else 0) := by
        symm
        calc ∑ c ∈ Finset.range M.ncols, conj (t c) *
              ∑ r ∈ Finset.range M.nrows, ∑ k ∈ Finset.Ico (r * K) ((r + 1) * K),
                (if M.colind k = c then (M.vals k : ℂ) * y r else 0)
            = ∑ c ∈ Finset.range M.ncols, ∑ r ∈ Finset.range M.nrows,
                ∑ k ∈ Finset.Ico (r * K) ((r + 1) * K),
                (if M.colind k = c then conj (t c) * ((M.vals k : ℂ) * y r) else 0) := by
              refine Finset.sum_congr rfl fun c hc => ?_
              rw [Finset.mul_sum]
              refine Finset.sum_congr rfl fun r hr => ?_
              rw [Finset.mul_sum]
              refine Finset.sum_congr rfl fun k hk => ?_
              rw [mul_ite, mul_zero]
          _ = ∑ r ∈ Finset.range M.nrows, ∑ k ∈ Finset.Ico (r * K) ((r + 1) * K),
                ∑ c ∈ Finset.range M.ncols,
                (if M.colind k = c then conj (t c) * ((M.vals k : ℂ) * y r) else 0) := by
              rw [Finset.sum_comm]
              refine Finset.sum_congr rfl fun r hr => Finset.sum_comm
          _ = ∑ r ∈ Finset.range M.nrows, ∑ k ∈ Finset.Ico (r * K) ((r + 1) * K),
                (M.vals k : ℂ) * conj (t (M.colind k)) * y r := by
              refine Finset.sum_congr rfl fun r hr => Finset.sum_congr rfl fun k hk => ?_
              rw [Finset.mem_range] at hr
              rw [Finset.mem_Ico] at hk
              have hkk : k < M.nrows * K := by
                have h1 := Nat.mul_le_mul_right K (show r + 1 ≤ M.nrows by omega)
                omega
              rw [Finset.sum_ite_eq, if_pos (Finset.mem_range.mpr (hcol k hkk))]
              ring

/-- Shared bound for the integer column index computed by
purify_measurement_init_cft under the documented coordinate preconditions. -/
lemma initColind_bounds (p : cparam) (u v : ℕ → ℝ)
    (hx4 : 4 ≤ nx2 p) (hy4 : 4 ≤ ny2 p) (hx2 : 2 ∣ nx2 p) (hy2 : 2 ∣ ny2 p)
    (hu : ∀ i < p.nmeas, -p.umax < u i ∧ u i ≤ p.umax)
    (hv : ∀ i < p.nmeas, -p.vmax < v i ∧ v i ≤ p.vmax)
    (i k : ℕ) (hi : i < p.nmeas) (hk : k < 25) :
    0 ≤ initColind p u v i k ∧ initColind p u v i k < (nx2 p : ℤ) * (ny2 p : ℤ) := by
  obtain ⟨hu1, hu2⟩ := hu i hi
  obtain ⟨hv1, hv2⟩ := hv i hi
  have hU := gridWrap_window_bound p.umax (u i) (nx2 p) hx4 hx2 hu1 hu2 (k % 5) (by omega)
  have hV := gridWrap_window_bound p.vmax (v i) (ny2 p) hy4 hy2 hv1 hv2 (k / 5) (by omega)
  rw [initColind, initIu2, initIv2]
  have hXnn : (0 : ℤ) ≤ (nx2 p : ℤ) := Int.ofNat_nonneg _
  constructor
  · nlinarith [hU.1, hV.1]
  · nlinarith [hU.1, hU.2, hV.1, hV.2]

/-- C1: with the interpolation matrix and the all-ones deconvolution array as
built by purify_measurement_init_cft (coordinates within the documented
ranges, padded dimensions even, at least 4 and large enough to contain the
quarter-offset window), purify_measurement_cftfwd and purify_measurement_cftadj
are formal adjoints under the standard complex inner product; both embed the
identical scalar normalization cftScale = 1 / sqrt(nx2 * ny2). -/
theorem cftfwd_cftadj_formal_adjoints (p : cparam) (u v : ℕ → ℝ)
    (hx4 : 4 ≤ nx2 p) (hy4 : 4 ≤ ny2 p) (hx2 : 2 ∣ nx2 p) (hy2 : 2 ∣ ny2 p)
    (hfx : nx2 p / 4 + p.nx1 ≤ nx2 p) (hfy : ny2 p / 4 + p.ny1 ≤ ny2 p)
    (hu : ∀ i < p.nmeas, -p.umax < u i ∧ u i ≤ p.umax)
    (hv : ∀ i < p.nmeas, -p.vmax < v i ∧ v i ≤ p.vmax)
    (x y : ℕ → ℂ) :
    cdot p.nmeas
      (purify_measurement_cftfwd p initDeconv (purify_measurement_init_cft p u v) x) y =
    cdot (p.nx1 * p.ny1) x
      (purify_measurement_cftadj p initDeconv (purify_measurement_init_cft p u v) y) := by
  have hcol : ∀ k, k < (purify_measurement_init_cft p u v).nrows * 25 →
      (purify_measurement_init_cft p u v).colind k <
        (purify_measurement_init_cft p u v).ncols := by
    intro k hkk
    have h1 : k / 25 < p.nmeas := by
      refine (Nat.div_lt_iff_lt_mul (by omega)).mpr ?_
      exact hkk
    have h2 := initColind_bounds p u v hx4 hy4 hx2 hy2 hu hv (k / 25) (k % 25)
      h1 (by omega)
    show (initColind p u v (k / 25) (k % 25)).toNat < nx2 p * ny2 p
    have h3 : ((nx2 p * ny2 p : ℕ) : ℤ) = (nx2 p : ℤ) * (ny2 p : ℤ) := by push_cast; ring
    omega
  unfold purify_measurement_cftfwd purify_measurement_cftadj
  show cdot (purify_measurement_init_cft p u v).nrows _ _ = _
  rw [sparse_adjoint (purify_measurement_init_cft p u v) 25 (fun r => rfl) hcol]
  show cdot (nx2 p * ny2 p) _ _ = _
  rw [show nx2 p * ny2 p = ny2 p * nx2 p by ring]
  rw [dft_adjoint (ny2 p) (nx2 p)]
  rw [show ny2 p * nx2 p = nx2 p * ny2 p by ring]
  rw [fftshift_adjoint (nx2 p) (ny2 p) hx2 hy2]
  rw [pad_crop_adjoint p initDeconv x _ hfx hfy]

/-- C1 witness: the adjointness statement instantiated at a concrete parameter
block, coordinates and vectors. -/
theorem cftfwd_cftadj_formal_adjoints_witness :
    4 ≤ nx2 ⟨1, 1, 4, 4, 1, 1, 1⟩ ∧
    cdot (⟨1, 1, 4, 4, 1, 1, 1⟩ : cparam).nmeas
      (purify_measurement_cftfwd ⟨1, 1, 4, 4, 1, 1, 1⟩ initDeconv
        (purify_measurement_init_cft ⟨1, 1, 4, 4, 1, 1, 1⟩ (fun _ => 0) (fun _ => 0))
        (fun _ => 0)) (fun _ => 0) =
    cdot ((⟨1, 1, 4, 4, 1, 1, 1⟩ : cparam).nx1 * (⟨1, 1, 4, 4, 1, 1, 1⟩ : cparam).ny1)
      (fun _ => 0)
      (purify_measurement_cftadj ⟨1, 1, 4, 4, 1, 1, 1⟩ initDeconv
        (purify_measurement_init_cft ⟨1, 1, 4, 4, 1, 1, 1⟩ (fun _ => 0) (fun _ => 0))
        (fun _ => 0)) :=
  ⟨by decide, cftfwd_cftadj_formal_adjoints ⟨1, 1, 4, 4, 1, 1, 1⟩
    (fun _ => 0) (fun _ => 0) (by decide) (by decide) (by decide) (by decide)
    (by decide) (by decide) (fun i _ => by constructor <;> norm_num)
    (fun i _ => by constructor <;> norm_num) (fun _ => 0) (fun _ => 0)⟩

/-! Replayed-writes lemmas: reading a buffer after a list of writes. -/

lemma applyWrites_no_write (ws : List (ℕ × ℂ)) (init : ℕ → ℂ) (k : ℕ)
    (h : ∀ q ∈ ws, q.1 ≠ k) : applyWrites ws init k = init k := by
  induction ws generalizing init with
  | nil => rfl
  | cons w ws ih =>
    have h1 : ∀ q ∈ ws, q.1 ≠ k := fun q hq => h q (List.mem_cons_of_mem w hq)
    have h2 : w.1 ≠ k := h w (List.mem_cons_self w ws)
    show applyWrites ws (Function.update init w.1 w.2) k = init k
    rw [ih (Function.update init w.1 w.2) h1]
    exact Function.update_noteq (Ne.symm h2) w.2 init

lemma applyWrites_all_eq (ws : List (ℕ × ℂ)) (init : ℕ → ℂ) (k : ℕ) (val : ℂ)
    (hex : ∃ q ∈ ws, q.1 = k)
    (hall : ∀ q ∈ ws, q.1 = k → q.2 = val) :
    applyWrites ws init k = val := by
  induction ws generalizing init with
  | nil =>
    obtain ⟨q, hq, _⟩ := hex
    exact absurd hq (List.not_mem_nil q)
  | cons w ws ih =>
    show applyWrites ws (Function.update init w.1 w.2) k = val
    by_cases htail : ∃ q ∈ ws, q.1 = k
    · exact ih (Function.update init w.1 w.2) htail
        (fun q hq => hall q (List.mem_cons_of_mem w hq))
    · have hw : w.1 = k := by
        obtain ⟨q, hq, hqk⟩ := hex
        rcases List.mem_cons.mp hq with h | h
        · rw [← h]; exact hqk
        · exact absurd ⟨q, h, hqk⟩ htail
      have hval : w.2 = val := hall w (List.mem_cons_self w ws) hw
      rw [applyWrites_no_write ws _ k (fun q hq hqk => htail ⟨q, hq, hqk⟩)]
      rw [← hw, Function.update_same, hval]

/-! Conjugate symmetry of the DFT of a real signal. -/

lemma dftK_congr (n : ℕ) (j j' : ℤ) (h : (n : ℤ) ∣ (j - j')) : dftK n j = dftK n j' := by
  rcases Nat.eq_zero_or_pos n with h0 | hpos
  · subst h0
    have h0 : j = j' := Int.eq_of_sub_eq_zero (by simpa using h)
    rw [h0]
  · obtain ⟨t, ht⟩ := h
    have hj : j = j' + (n : ℤ) * t := by linarith
    subst hj
    unfold dftK
    have hn : (n : ℂ) ≠ 0 := Nat.cast_ne_zero.mpr (by omega)
    push_cast
    rw [show 2 * (Real.pi : ℂ) * Complex.I * ((j' : ℂ) + (n : ℂ) * (t : ℂ)) / (n : ℂ) =
        2 * (Real.pi : ℂ) * Complex.I * (j' : ℂ) / (n : ℂ) +
          (t : ℂ) * (2 * (Real.pi : ℂ) * Complex.I) by field_simp; ring]
    rw [Complex.exp_add, Complex.exp_int_mul_two_pi_mul_I, mul_one]

lemma mirror_add_dvd (n i : ℕ) (hi : i < n) : n ∣ (i + (n - i) % n) := by
  rcases Nat.eq_zero_or_pos i with h0 | hpos
  · subst h0
    simp [Nat.mod_self]
  · rw [Nat.mod_eq_of_lt (by omega), show i + (n - i) = n by omega]

lemma dft_real_mirror (nx ny : ℕ) (x : ℕ → ℝ) (iu iv : ℕ) (hu : iu < nx) (hv : iv < ny) :
    conj (dftF nx ny (fun m => (x m : ℂ)) (iu * ny + iv)) =
    dftF nx ny (fun m => (x m : ℂ)) (((nx - iu) % nx) * ny + (ny - iv) % ny) := by
  have hmu : (nx - iu) % nx < nx := Nat.mod_lt _ (by omega)
  have hmv : (ny - iv) % ny < ny := Nat.mod_lt _ (by omega)
  unfold dftF
  rw [map_sum]
  rw [encode_div ny _ _ hv, encode_mod ny _ _ hv,
    encode_div ny _ _ hmv, encode_mod ny _ _ hmv]
  refine Finset.sum_congr rfl fun k1 hk1 => ?_
  rw [map_sum]
  refine Finset.sum_congr rfl fun k2 hk2 => ?_
  rw [map_mul, map_mul, Complex.conj_ofReal, dftK_conj, dftK_conj, neg_neg, neg_neg]
  have e1 : dftK nx ((iu : ℤ) * (k1 : ℤ)) = dftK nx (-(((nx - iu) % nx : ℕ) : ℤ) * (k1 : ℤ)) := by
    refine dftK_congr nx _ _ ?_
    have h1 : ((nx : ℤ)) ∣ ((iu + (nx - iu) % nx : ℕ) : ℤ) := Int.natCast_dvd_natCast.mpr
      (mirror_add_dvd nx iu hu)
    have h2 : (iu : ℤ) * (k1 : ℤ) - -(((nx - iu) % nx : ℕ) : ℤ) * (k1 : ℤ) =
        ((iu + (nx - iu) % nx : ℕ) : ℤ) * (k1 : ℤ) := by
      push_cast
      ring
    rw [h2]
    exact Dvd.dvd.mul_right h1 _
  have e2 : dftK ny ((iv : ℤ) * (k2 : ℤ)) = dftK ny (-(((ny - iv) % ny : ℕ) : ℤ) * (k2 : ℤ)) := by
    refine dftK_congr ny _ _ ?_
    have h1 : ((ny : ℤ)) ∣ ((iv + (ny - iv) % ny : ℕ) : ℤ) := Int.natCast_dvd_natCast.mpr
      (mirror_add_dvd ny iv hv)
    have h2 : (iv : ℤ) * (k2 : ℤ) - -(((ny - iv) % ny : ℕ) : ℤ) * (k2 : ℤ) =
        ((iv + (ny - iv) % ny : ℕ) : ℤ) * (k2 : ℤ) := by
      push_cast
      ring
    rw [h2]
    exact Dvd.dvd.mul_right h1 _
  rw [e1, e2]
  push_cast
  ring

lemma rfftHalf_eval (nx ny : ℕ) (x : ℕ → ℝ) (iu iv : ℕ) (hv : iv < ny / 2 + 1) :
    rfftHalf nx ny x (iu * (ny / 2 + 1) + iv) =
    dftF nx ny (fun m => (x m : ℂ)) (iu * ny + iv) := by
  unfold rfftHalf
  rw [encode_div (ny / 2 + 1) iu iv hv, encode_mod (ny / 2 + 1) iu iv hv]

/-! Every write performed by purify_measurement_fft_real stores the value of
the full DFT at the written index, because the half-plane values are DFT
values and each conjugate write equals the DFT value at its Hermitian mirror
when the input is real. -/

lemma fftRealWrites_value (nx ny : ℕ) (x : ℕ → ℝ) (hny0 : 0 < ny) (q : ℕ × ℂ)
    (hq : q ∈ fftRealWrites nx ny (rfftHalf nx ny x)) :
    q.2 = dftF nx ny (fun m => (x m : ℂ)) q.1 := by
  unfold fftRealWrites at hq
  rw [List.mem_flatMap] at hq
  obtain ⟨iu, hiu, hq⟩ := hq
  rw [List.mem_range] at hiu
  rw [List.mem_flatMap] at hq
  obtain ⟨iv, hiv, hq⟩ := hq
  rw [List.mem_range] at hiv
  rw [List.mem_cons] at hq
  rcases hq with hq | hq
  · subst hq
    show rfftHalf nx ny x (iu * (ny / 2 + 1) + iv) = _
    rw [rfftHalf_eval nx ny x iu iv hiv]
    rfl
  · by_cases h00 : iu = 0 ∧ iv = 0
    · rw [if_pos h00] at hq
      exact absurd hq (List.not_mem_nil q)
    rw [if_neg h00] at hq
    by_cases hu0 : iu = 0
    · rw [if_pos hu0] at hq
      by_cases hg : purify_visibility_iuiv2ind iu iv nx ny ≠
          purify_visibility_iuiv2ind iu (ny - iv) nx ny
      · rw [if_pos hg] at hq
        rw [List.mem_singleton] at hq
        subst hq
        have hv0 : iv ≠ 0 := fun h => h00 ⟨hu0, h⟩
        subst hu0
        show conj (rfftHalf nx ny x (0 * (ny / 2 + 1) + iv)) = _
        rw [rfftHalf_eval nx ny x 0 iv hiv,
          dft_real_mirror nx ny x 0 iv (by omega) (by omega)]
        show dftF nx ny _ (((nx - 0) % nx) * ny + (ny - iv) % ny) =
          dftF nx ny _ (purify_visibility_iuiv2ind 0 (ny - iv) nx ny)
        rw [purify_visibility_iuiv2ind, Nat.sub_zero, Nat.mod_self,
          Nat.mod_eq_of_lt (by omega : ny - iv < ny)]
      · rw [if_neg hg] at hq
        exact absurd hq (List.not_mem_nil q)
    rw [if_neg hu0] at hq
    by_cases hv0 : iv = 0
    · rw [if_pos hv0] at hq
      by_cases hg : purify_visibility_iuiv2ind iu iv nx ny ≠
          purify_visibility_iuiv2ind (nx - iu) iv nx ny
      · rw [if_pos hg] at hq
        rw [List.mem_singleton] at hq
        subst hq
        subst hv0
        show conj (rfftHalf nx ny x (iu * (ny / 2 + 1) + 0)) = _
        rw [rfftHalf_eval nx ny x iu 0 hiv,
          dft_real_mirror nx ny x iu 0 hiu hny0]
        show dftF nx ny _ (((nx - iu) % nx) * ny + (ny - 0) % ny) =
          dftF nx ny _ (purify_visibility_iuiv2ind (nx - iu) 0 nx ny)
        rw [purify_visibility_iuiv2ind, Nat.sub_zero, Nat.mod_self,
          Nat.mod_eq_of_lt (by omega : nx - iu < nx)]
      · rw [if_neg hg] at hq
        exact absurd hq (List.not_mem_nil q)
    by_cases hg : purify_visibility_iuiv2ind iu iv nx ny ≠
        purify_visibility_iuiv2ind (nx - iu) (ny - iv) nx ny
    · rw [if_neg hv0, if_pos hg] at hq
      rw [List.mem_singleton] at hq
      subst hq
      show conj (rfftHalf nx ny x (iu * (ny / 2 + 1) + iv)) = _
      rw [rfftHalf_eval nx ny x iu iv hiv,
        dft_real_mirror nx ny x iu iv hiu (by omega)]
      show dftF nx ny _ (((nx - iu) % nx) * ny + (ny - iv) % ny) =
        dftF nx ny _ (purify_visibility_iuiv2ind (nx - iu) (ny - iv) nx ny)
      rw [purify_visibility_iuiv2ind,
        Nat.mod_eq_of_lt (by omega : nx - iu < nx),
        Nat.mod_eq_of_lt (by omega : ny - iv < ny)]
    · rw [if_neg hv0, if_neg hg] at hq
      exact absurd hq (List.not_mem_nil q)

/-! Every cell of the full plane receives at least one write. -/

lemma fftRealWrites_covers (nx ny : ℕ) (yh : ℕ → ℂ) (tu tv : ℕ)
    (htu : tu < nx) (htv : tv < ny) :
    ∃ q ∈ fftRealWrites nx ny yh, q.1 = tu * ny + tv := by
  unfold fftRealWrites
  by_cases hcase : tv ≤ ny / 2
  · refine ⟨(purify_visibility_iuiv2ind tu tv nx ny, yh (tu * (ny / 2 + 1) + tv)), ?_, rfl⟩
    rw [List.mem_flatMap]
    refine ⟨tu, List.mem_range.mpr htu, ?_⟩
    rw [List.mem_flatMap]
    refine ⟨tv, List.mem_range.mpr (by omega), ?_⟩
    exact List.mem_cons_self _ _
  · push_neg at hcase
    have hiv1 : 1 ≤ ny - tv := by omega
    have hivr : ny - tv < ny / 2 + 1 := by omega
    by_cases htu0 : tu = 0
    · subst htu0
      refine ⟨(purify_visibility_iuiv2ind 0 (ny - (ny - tv)) nx ny,
        conj (yh (0 * (ny / 2 + 1) + (ny - tv)))), ?_, ?_⟩
      · rw [List.mem_flatMap]
        refine ⟨0, List.mem_range.mpr (by omega), ?_⟩
        rw [List.mem_flatMap]
        refine ⟨ny - tv, List.mem_range.mpr hivr, ?_⟩
        have hgrd : purify_visibility_iuiv2ind 0 (ny - tv) nx ny ≠
            purify_visibility_iuiv2ind 0 (ny - (ny - tv)) nx ny := by
          simp only [purify_visibility_iuiv2ind]
          omega
        rw [if_neg (by omega : ¬ ((0 : ℕ) = 0 ∧ ny - tv = 0)), if_pos rfl, if_pos hgrd]
        exact List.mem_cons_of_mem _ (List.mem_singleton.mpr rfl)
      · simp only [purify_visibility_iuiv2ind]
        omega
    · refine ⟨(purify_visibility_iuiv2ind (nx - (nx - tu)) (ny - (ny - tv)) nx ny,
        conj (yh ((nx - tu) * (ny / 2 + 1) + (ny - tv)))), ?_, ?_⟩
      · rw [List.mem_flatMap]
        refine ⟨nx - tu, List.mem_range.mpr (by omega), ?_⟩
        rw [List.mem_flatMap]
        refine ⟨ny - tv, List.mem_range.mpr hivr, ?_⟩
        have hgrd : purify_visibility_iuiv2ind (nx - tu) (ny - tv) nx ny ≠
            purify_visibility_iuiv2ind (nx - (nx - tu)) (ny - (ny - tv)) nx ny := by
          simp only [purify_visibility_iuiv2ind]
          intro heq
          have hm1 : ((nx - tu) * ny + (ny - tv)) % ny = ny - tv :=
            encode_mod ny _ _ (by omega)
          have hm2 : ((nx - (nx - tu)) * ny + (ny - (ny - tv))) % ny = ny - (ny - tv) :=
            encode_mod ny _ _ (by omega)
          rw [heq, hm2] at hm1
          omega
        rw [if_neg (by omega : ¬ (nx - tu = 0 ∧ ny - tv = 0)),
          if_neg (by omega : ¬ nx - tu = 0), if_neg (by omega : ¬ ny - tv = 0),
          if_pos hgrd]
        exact List.mem_cons_of_mem _ (List.mem_singleton.mpr rfl)
      · simp only [purify_visibility_iuiv2ind]
        have e1 : nx - (nx - tu) = tu := by omega
        have e2 : ny - (ny - tv) = tv := by omega
        rw [e1, e2]

/-- Closed form of purify_measurement_fft_real on a real input: the completed
buffer is the full unnormalized DFT of the input. -/
lemma fft_real_eq_dft (nx ny : ℕ) (x : ℕ → ℝ) (iu iv : ℕ) (hu : iu < nx) (hv : iv < ny) :
    purify_measurement_fft_real nx ny x (iu * ny + iv) =
    dftF nx ny (fun m => (x m : ℂ)) (iu * ny + iv) := by
  unfold purify_measurement_fft_real
  refine applyWrites_all_eq _ _ _ _ ?_ ?_
  · exact fftRealWrites_covers nx ny (rfftHalf nx ny x) iu iv hu hv
  · intro q hq hqk
    rw [← hqk]
    exact fftRealWrites_value nx ny x (by omega) q hq

/-- C3: for every real input image and even second dimension, the output of
purify_measurement_fft_real satisfies the full-plane conjugate symmetry
spectrum(iu, iv) = conj(spectrum((nx - iu) mod nx, (ny - iv) mod ny)) at every
index pair, the half-plane being copied from the real-to-complex FFT and the
rest reconstructed by conjugation (the DC element without conjugation). -/
theorem fft_real_conjugate_symmetry (nx ny : ℕ) (x : ℕ → ℝ) (hny2 : 2 ∣ ny)
    (iu iv : ℕ) (hu : iu < nx) (hv : iv < ny) :
    purify_measurement_fft_real nx ny x (iu * ny + iv) =
      conj (purify_measurement_fft_real nx ny x
        (((nx - iu) % nx) * ny + (ny - iv) % ny)) := by
  rw [fft_real_eq_dft nx ny x iu iv hu hv,
    fft_real_eq_dft nx ny x ((nx - iu) % nx) ((ny - iv) % ny)
      (Nat.mod_lt _ (by omega)) (Nat.mod_lt _ (by omega)),
    ← dft_real_mirror nx ny x iu iv hu hv, Complex.conj_conj]

/-- C3 witness: the conjugate-symmetry statement instantiated at a concrete
image size, input and index pair. -/
theorem fft_real_conjugate_symmetry_witness :
    (2 : ℕ) ∣ 2 ∧
    purify_measurement_fft_real 2 2 (fun _ => 0) (0 * 2 + 1) =
      conj (purify_measurement_fft_real 2 2 (fun _ => 0)
        (((2 - 0) % 2) * 2 + (2 - 1) % 2)) :=
  ⟨by decide, fft_real_conjugate_symmetry 2 2 (fun _ => 0) (by decide) 0 1
    (by decide) (by decide)⟩

/-! The symmetrized composite equals twice the real part of the unsymmetrized
composite: the adjoint only reads the first nrows entries of its input, where
symcftfwd agrees with cftfwd. -/

lemma spadj_congr (M : purify_sparsemat_row) (y1 y2 : ℕ → ℂ)
    (h : ∀ r < M.nrows, y1 r = y2 r) (c : ℕ) :
    purify_sparsemat_adj_complexr M y1 c = purify_sparsemat_adj_complexr M y2 c := by
  unfold purify_sparsemat_adj_complexr
  refine Finset.sum_congr rfl fun r hr => Finset.sum_congr rfl fun k hk => ?_
  rw [h r (Finset.mem_range.mp hr)]

lemma symcft_composite_eval (p : cparam) (dv : ℕ → ℝ) (mat : purify_sparsemat_row)
    (x : ℕ → ℂ) (hrows : mat.nrows ≤ p.nmeas) (m : ℕ) :
    purify_measurement_symcftadj p dv mat (purify_measurement_symcftfwd p dv mat x) m =
    ((2 * (purify_measurement_cftadj p dv mat
        (purify_measurement_cftfwd p dv mat x) m).re : ℝ) : ℂ) := by
  have hfun : purify_sparsemat_adj_complexr mat (purify_measurement_symcftfwd p dv mat x) =
      purify_sparsemat_adj_complexr mat (purify_measurement_cftfwd p dv mat x) := by
    funext c
    refine spadj_congr mat _ _ (fun r hr => ?_) c
    have hrlt : r < p.nmeas := by omega
    simp [purify_measurement_symcftfwd, hrlt]
  have hadj : purify_measurement_cftadj p dv mat
      (purify_measurement_symcftfwd p dv mat x) m =
      purify_measurement_cftadj p dv mat (purify_measurement_cftfwd p dv mat x) m := by
    unfold purify_measurement_cftadj
    rw [hfun]
  show ((2 * (purify_measurement_cftadj p dv mat
      (purify_measurement_symcftfwd p dv mat x) m).re : ℝ) : ℂ) = _
  rw [hadj]

/-- C4 as amended: for every image (real-valued or not), the composite
symcftadj of symcftfwd yields, at every pixel, exactly twice the real part of
the non-symmetric composite cftadj of cftfwd, with imaginary part exactly
zero; it is proportional to the non-symmetric composite only when the latter
is real. -/
theorem symcft_composite_twice_real_part (p : cparam) (dv : ℕ → ℝ)
    (mat : purify_sparsemat_row) (x : ℕ → ℂ) (hrows : mat.nrows ≤ p.nmeas)
    (m : ℕ) (hm : m < p.nx1 * p.ny1) :
    purify_measurement_symcftadj p dv mat (purify_measurement_symcftfwd p dv mat x) m =
      2 * ((purify_measurement_cftadj p dv mat
        (purify_measurement_cftfwd p dv mat x) m).re : ℂ) ∧
    (purify_measurement_symcftadj p dv mat
      (purify_measurement_symcftfwd p dv mat x) m).im = 0 := by
  constructor
  · rw [symcft_composite_eval p dv mat x hrows m]
    push_cast
    ring
  · simp [purify_measurement_symcftadj]

/-- C4 amended witness: the twice-real-part statement instantiated at a
concrete parameter block, matrix and image. -/
theorem symcft_composite_twice_real_part_witness :
    (⟨1, 8, 1, fun _ => 1, fun _ => 1, fun r => r⟩ : purify_sparsemat_row).nrows ≤
      (⟨1, 1, 2, 2, 1, 1, 1⟩ : cparam).nmeas ∧
    (0 : ℕ) < (⟨1, 1, 2, 2, 1, 1, 1⟩ : cparam).nx1 * (⟨1, 1, 2, 2, 1, 1, 1⟩ : cparam).ny1 ∧
    (purify_measurement_symcftadj ⟨1, 1, 2, 2, 1, 1, 1⟩ (fun _ => 1)
        ⟨1, 8, 1, fun _ => 1, fun _ => 1, fun r => r⟩
        (purify_measurement_symcftfwd ⟨1, 1, 2, 2, 1, 1, 1⟩ (fun _ => 1)
          ⟨1, 8, 1, fun _ => 1, fun _ => 1, fun r => r⟩ (fun _ => 0)) 0 =
      2 * ((purify_measurement_cftadj ⟨1, 1, 2, 2, 1, 1, 1⟩ (fun _ => 1)
        ⟨1, 8, 1, fun _ => 1, fun _ => 1, fun r => r⟩
        (purify_measurement_cftfwd ⟨1, 1, 2, 2, 1, 1, 1⟩ (fun _ => 1)
          ⟨1, 8, 1, fun _ => 1, fun _ => 1, fun r => r⟩ (fun _ => 0)) 0).re : ℂ) ∧
    (purify_measurement_symcftadj ⟨1, 1, 2, 2, 1, 1, 1⟩ (fun _ => 1)
        ⟨1, 8, 1, fun _ => 1, fun _ => 1, fun r => r⟩
        (purify_measurement_symcftfwd ⟨1, 1, 2, 2, 1, 1, 1⟩ (fun _ => 1)
          ⟨1, 8, 1, fun _ => 1, fun _ => 1, fun r => r⟩ (fun _ => 0)) 0).im = 0) :=
  ⟨by decide, by decide, symcft_composite_twice_real_part ⟨1, 1, 2, 2, 1, 1, 1⟩
    (fun _ => 1) ⟨1, 8, 1, fun _ => 1, fun _ => 1, fun r => r⟩ (fun _ => 0)
    (by decide) 0 (by decide)⟩

/-! Concrete instance refuting proportionality of the symmetrized composite to
the non-symmetric composite: nx1 = 2, ny1 = 1, ofx = ofy = 2, one measurement
whose single interpolation entry selects padded-grid cell 1, and the real
image (0, 1). -/

def c4param : cparam := ⟨2, 1, 2, 2, 1, 1, 1⟩

def c4mat : purify_sparsemat_row := ⟨1, 8, 1, fun _ => 1, fun _ => 1, fun r => r⟩

def c4img : ℕ → ℂ := fun m => if m = 1 then 1 else 0

lemma c4_nx2 : nx2 c4param = 4 := rfl

lemma c4_ny2 : ny2 c4param = 2 := rfl

lemma dftK_zero (n : ℕ) : dftK n 0 = 1 := by
  simp [dftK]

lemma c4_A (m : ℕ) (hm : m < 8) :
    purify_utils_fftshift_2d_c 4 2 (cftPad c4param (fun _ => 1) c4img) m =
    (if m = 4 then ((cftScale c4param : ℝ) : ℂ) else 0) := by
  interval_cases m <;>
    norm_num [purify_utils_fftshift_2d_c, shiftIdx, cftPad, c4param, c4img, nx2, ny2]

lemma c4_fwd : purify_measurement_cftfwd c4param (fun _ => 1) c4mat c4img 0 =
    ((cftScale c4param : ℝ) : ℂ) := by
  unfold purify_measurement_cftfwd purify_sparsemat_fwd_complexr
  rw [show c4mat.rowptr 0 = 0 from rfl, show c4mat.rowptr (0 + 1) = 1 from rfl,
    Nat.Ico_zero_eq_range, Finset.sum_range_one,
    show c4mat.colind 0 = 1 from rfl, show ((c4mat.vals 0 : ℝ) : ℂ) = 1 from by
      norm_num [c4mat]]
  have hA0 := c4_A 0 (by norm_num)
  have hA1 := c4_A 1 (by norm_num)
  have hA2 := c4_A 2 (by norm_num)
  have hA3 := c4_A 3 (by norm_num)
  have hA4 := c4_A 4 (by norm_num)
  have hA5 := c4_A 5 (by norm_num)
  have hA6 := c4_A 6 (by norm_num)
  have hA7 := c4_A 7 (by norm_num)
  unfold dftF
  rw [c4_nx2, c4_ny2]
  norm_num [Finset.sum_range_succ, hA0, hA1, hA2, hA3, hA4, hA5, hA6, hA7,
    dftK_zero]

lemma c4_g (c : ℕ) :
    purify_sparsemat_adj_complexr c4mat
      (purify_measurement_cftfwd c4param (fun _ => 1) c4mat c4img) c =
    (if c = 1 then ((cftScale c4param : ℝ) : ℂ) else 0) := by
  unfold purify_sparsemat_adj_complexr
  rw [show c4mat.nrows = 1 from rfl, Finset.sum_range_one,
    show c4mat.rowptr 0 = 0 from rfl, show c4mat.rowptr (0 + 1) = 1 from rfl,
    Nat.Ico_zero_eq_range, Finset.sum_range_one,
    show c4mat.colind 0 = 1 from rfl, c4_fwd,
    show ((c4mat.vals 0 : ℝ) : ℂ) = 1 from by norm_num [c4mat]]
  rcases eq_or_ne c 1 with h | h
  · subst h
    norm_num
  · rw [if_neg (fun hh => h hh.symm), if_neg h]

lemma c4_B (m : ℕ) :
    dftB 2 4 (purify_sparsemat_adj_complexr c4mat
      (purify_measurement_cftfwd c4param (fun _ => 1) c4mat c4img)) m =
    ((cftScale c4param : ℝ) : ℂ) * dftK 4 ((m % 4 : ℕ) : ℤ) := by
  unfold dftB
  norm_num [Finset.sum_range_succ, c4_g, dftK_zero]

lemma dftK_four_one : dftK 4 1 = Complex.I := by
  unfold dftK
  push_cast
  rw [show 2 * (Real.pi : ℂ) * Complex.I * 1 / 4 = ((Real.pi / 2 : ℝ) : ℂ) * Complex.I by
    push_cast; ring]
  rw [Complex.exp_mul_I, ← Complex.ofReal_cos, ← Complex.ofReal_sin,
    Real.cos_pi_div_two, Real.sin_pi_div_two]
  simp

lemma dftK_four_three : dftK 4 3 = -Complex.I := by
  rw [dftK_congr 4 3 (-1) (by decide), ← dftK_conj, dftK_four_one, Complex.conj_I]

lemma c4_adj0 :
    purify_measurement_cftadj c4param (fun _ => 1) c4mat
      (purify_measurement_cftfwd c4param (fun _ => 1) c4mat c4img) 0 =
    -Complex.I * ((cftScale c4param : ℝ) : ℂ) ^ 2 := by
  unfold purify_measurement_cftadj cftCrop purify_utils_fftshift_2d_c
  rw [c4_nx2, c4_ny2]
  rw [show (0 / c4param.nx1 + 2 / 4) * 4 + (0 % c4param.nx1 + 4 / 4) = 1 from rfl]
  rw [show shiftIdx 4 2 1 = 7 from rfl, c4_B 7]
  rw [show (7 : ℕ) % 4 = 3 from rfl, show ((3 : ℕ) : ℤ) = 3 from rfl, dftK_four_three]
  push_cast
  ring

lemma c4_adj1 :
    purify_measurement_cftadj c4param (fun _ => 1) c4mat
      (purify_measurement_cftfwd c4param (fun _ => 1) c4mat c4img) 1 =
    ((cftScale c4param : ℝ) : ℂ) ^ 2 := by
  unfold purify_measurement_cftadj cftCrop purify_utils_fftshift_2d_c
  rw [c4_nx2, c4_ny2]
  rw [show (1 / c4param.nx1 + 2 / 4) * 4 + (1 % c4param.nx1 + 4 / 4) = 2 from rfl]
  rw [show shiftIdx 4 2 2 = 4 from rfl, c4_B 4]
  rw [show (4 : ℕ) % 4 = 0 from rfl, show ((0 : ℕ) : ℤ) = 0 from rfl, dftK_zero]
  push_cast
  ring

/-- C4 counterexample: at the concrete instance c4param, c4mat and the real
image c4img = (0, 1), the symmetrized composite is (0, 2 s^2) while the
non-symmetric composite cftadj of cftfwd is (-I s^2, s^2) with s the common
scale; no complex constant c satisfies symmetric = c * non-symmetric on both
pixels, so the symmetrized composite is not proportional to the non-symmetric
composite. -/
theorem symcft_composite_not_proportional_counterexample :
    ¬ ∃ c : ℂ, ∀ i < 2,
      purify_measurement_symcftadj c4param (fun _ => 1) c4mat
        (purify_measurement_symcftfwd c4param (fun _ => 1) c4mat c4img) i =
      c * purify_measurement_cftadj c4param (fun _ => 1) c4mat
        (purify_measurement_cftfwd c4param (fun _ => 1) c4mat c4img) i := by
  have hcast : ((nx2 c4param * ny2 c4param : ℕ) : ℝ) = 8 := by
    norm_num [c4_nx2, c4_ny2]
  have hs : (0 : ℝ) < cftScale c4param := by
    rw [cftScale, hcast]
    positivity
  have hsC : ((cftScale c4param : ℝ) : ℂ) ≠ 0 :=
    Complex.ofReal_ne_zero.mpr (ne_of_gt hs)
  rintro ⟨c, hc⟩
  have h0 := hc 0 (by norm_num)
  have h1 := hc 1 (by norm_num)
  rw [symcft_composite_eval c4param (fun _ => 1) c4mat c4img (le_refl 1) 0,
    c4_adj0] at h0
  rw [symcft_composite_eval c4param (fun _ => 1) c4mat c4img (le_refl 1) 1,
    c4_adj1] at h1
  have hre0 : (-Complex.I * ((cftScale c4param : ℝ) : ℂ) ^ 2).re = 0 := by
    simp only [← Complex.ofReal_pow, Complex.mul_re, Complex.neg_re, Complex.I_re,
      Complex.neg_im, Complex.I_im, Complex.ofReal_re, Complex.ofReal_im]
    norm_num
  have hre1 : ((((cftScale c4param : ℝ)) : ℂ) ^ 2).re = cftScale c4param ^ 2 := by
    rw [← Complex.ofReal_pow, Complex.ofReal_re]
  rw [hre0] at h0
  rw [hre1] at h1
  have hc0 : c = 0 := by
    have h0x : c * (-Complex.I * ((cftScale c4param : ℝ) : ℂ) ^ 2) = 0 := by
      rw [← h0]
      norm_num
    rcases mul_eq_zero.mp h0x with h | h
    · exact h
    · exfalso
      rcases mul_eq_zero.mp h with h2 | h2
      · simpa using h2
      · exact hsC ((pow_eq_zero_iff (two_ne_zero)).mp h2)
  rw [hc0, zero_mul] at h1
  have hfin : (2 : ℝ) * cftScale c4param ^ 2 = 0 := by exact_mod_cast h1
  nlinarith [hs]
